import Mathlib

/-!
Verification development for `synology_album_linker`.

The Python sources are shallowly embedded:
* `collect_folders_recursive` models `cache.py`'s recursive folder collector,
  with the remote listing calls represented by a `Listing` tree (a listing
  either fails with an error string or returns the immediate child folders).
* `cache_folders_dump` / `load_cached_folders_parse` model the JSON
  serialization performed by `cache_folders` and `load_cached_folders`.
* `get_album_year` and `create_album_links` model `main.py`, with the
  filesystem represented as an association list from paths to entries and
  with external-world existence and permission checks supplied as oracles.

Python dictionaries are modelled as association lists with in-place update
semantics (`dinsert`), and lookups (`dlookup`) return the bound value.
-/

set_option autoImplicit false

namespace SAL

/-! ### Python dict model -/

/-- The folder cache: a mapping from folder id (string key) to
`(folder name, owner user id)`. -/
abbrev FolderDict := List (String × (String × Nat))

/-- Dictionary lookup (`d[k]` / `k in d`). -/
def dlookup (k : String) : FolderDict → Option (String × Nat)
  | [] => none
  | (k', v) :: rest => if k' = k then some v else dlookup k rest

/-- Dictionary assignment `d[k] = v`: replace an existing binding in place,
otherwise append, matching Python insertion-order semantics. -/
def dinsert (d : FolderDict) (k : String) (v : String × Nat) : FolderDict :=
  match d with
  | [] => [(k, v)]
  | (k', v') :: rest => if k' = k then (k, v) :: rest else (k', v') :: dinsert rest k v

/-- `d.update(r)`: assign every binding of `r` into `d`, in order. -/
def dupdate (d : FolderDict) (r : FolderDict) : FolderDict :=
  r.foldl (fun acc kv => dinsert acc kv.1 kv.2) d

/-! ### Folder trees (the remote listing environment of `cache.py`) -/

mutual
/-- One remote folder record: `{"id": ..., "name": ..., "owner_user_id": ...}`
together with the behaviour of the one-level listing call for that folder. -/
inductive Folder where
  | mk (id : Nat) (name : String) (owner_user_id : Nat) (listing : Listing)
/-- Result of a one-level listing call for a folder id: either the call raises
(network/API error) or returns the list of immediate child folders. -/
inductive Listing where
  | fail (err : String)
  | ok (children : List Folder)
end

def Folder.id : Folder → Nat
  | .mk i _ _ _ => i

def Folder.name : Folder → String
  | .mk _ n _ _ => n

def Folder.owner_user_id : Folder → Nat
  | .mk _ _ o _ => o

def Folder.listing : Folder → Listing
  | .mk _ _ _ l => l

/-- The error line printed by `collect_folders_recursive` when a listing call
fails (`tqdm.write(f"Error fetching {folder_type} folders for ID ...")`). -/
def fetchErrorMsg (is_shared : Bool) (folder_id : Nat) (err : String) : String :=
  "Error fetching " ++ (if is_shared then "shared" else "personal") ++
    " folders for ID " ++ toString folder_id ++ ": " ++ err

mutual
/-- Model of `cache.collect_folders_recursive`: list the current folder; on
failure log and return the empty mapping; otherwise record each child's
`str(id) ↦ (name, owner_user_id)` binding and merge (`dict.update`) the
recursively collected mappings of all children, in order.  The second
component collects the error lines written by the failing branches. -/
def collect_folders_recursive (is_shared : Bool) (folder_id : Nat) :
    Listing → FolderDict × List String
  | .fail err => ([], [fetchErrorMsg is_shared folder_id err])
  | .ok [] => ([], [])
  | .ok (f :: fs) =>
      let folders := (f :: fs).foldl
        (fun acc g => dinsert acc (toString g.id) (g.name, g.owner_user_id)) []
      let results := collectChildren is_shared (f :: fs)
      (results.foldl (fun acc r => dupdate acc r.1) folders,
       results.foldl (fun acc r => acc ++ r.2) [])

/-- The results of the recursive calls spawned for the immediate children
(`executor.map(collect_fn, folder_ids)`), in child order. -/
def collectChildren (is_shared : Bool) : List Folder → List (FolderDict × List String)
  | [] => []
  | .mk i _ _ l :: fs =>
      collect_folders_recursive is_shared i l :: collectChildren is_shared fs
end

mutual
/-- All folders reachable from a listing by repeated successful one-level
listing calls (a failing listing contributes nothing below it). -/
def reachableFolders : Listing → List Folder
  | .fail _ => []
  | .ok items => items ++ reachList items

def reachList : List Folder → List Folder
  | [] => []
  | .mk _ _ _ l :: fs => reachableFolders l ++ reachList fs
end

mutual
/-- A listing tree in which every reachable listing call succeeds. -/
def allOk : Listing → Bool
  | .fail _ => false
  | .ok items => allOkList items

def allOkList : List Folder → Bool
  | [] => true
  | .mk _ _ _ l :: fs => allOk l && allOkList fs
end

/-- The `(string key, (name, owner))` triple recorded for a folder. -/
def levelEntry (f : Folder) : String × (String × Nat) :=
  (toString f.id, (f.name, f.owner_user_id))

/-- The `(string key, (name, owner))` triples of all reachable folders. -/
def entriesOf (l : Listing) : FolderDict :=
  (reachableFolders l).map levelEntry

/-- The reachable entries below a list of sibling folders. -/
def entriesOfList (fs : List Folder) : FolderDict :=
  (reachList fs).map levelEntry

/-- The current-level dictionary built by the `for folder in items` loop. -/
def baseDict (items : List Folder) : FolderDict :=
  items.foldl (fun acc g => dinsert acc (toString g.id) (g.name, g.owner_user_id)) []

/-- Merging child results into an accumulator (`folders.update(result)`). -/
def mergeResults (base : FolderDict) (rs : List (FolderDict × List String)) : FolderDict :=
  rs.foldl (fun acc r => dupdate acc r.1) base

/-! ### Cache file model (`cache_folders` / `load_cached_folders`)

The cache file is JSON: one object mapping each string-encoded folder id to
the two-element array `[name, owner_user_id]`.  `json.dump`/`json.load` are
modelled at the structured (JSON-value) level. -/

inductive Json where
  | str (s : String)
  | num (n : Nat)
  | arr (elems : List Json)
  | obj (fields : List (String × Json))

/-- The JSON value written by `cache_folders`
(`json.dump(all_folders, f, indent=4)`). -/
def cache_folders_json (d : FolderDict) : Json :=
  .obj (d.map (fun kv => (kv.1, .arr [.str kv.2.1, .num kv.2.2])))

/-- Reading back one `key: [name, owner]` field of the cache object. -/
def decodeEntry (f : String × Json) : Option (String × (String × Nat)) :=
  match f with
  | (k, .arr [.str n, .num o]) => some (k, (n, o))
  | _ => none

def decodeEntries : List (String × Json) → Option FolderDict
  | [] => some []
  | f :: rest =>
      match decodeEntry f with
      | none => none
      | some kv =>
          match decodeEntries rest with
          | none => none
          | some d => some (kv :: d)

/-- The mapping recovered by `load_cached_folders` (`json.load(f)`), at the
structured level. -/
def load_cached_folders_json (j : Json) : Option FolderDict :=
  match j with
  | .obj fields => decodeEntries fields
  | _ => none

/-! ### Album year resolution (`main.get_album_year`) -/

/-- `re.match(r"^(\d{4})", name)` succeeds: the first four characters exist
and are digits. -/
def startsFourDigits (s : String) : Bool :=
  match s.data with
  | c0 :: c1 :: c2 :: c3 :: _ => c0.isDigit && c1.isDigit && c2.isDigit && c3.isDigit
  | _ => false

/-- `re.match(r"^(2\d)", name)` succeeds: the name starts with the literal
digit `2` followed by another digit. -/
def startsTwoDigit2 (s : String) : Bool :=
  match s.data with
  | c0 :: c1 :: _ => c0 == '2' && c1.isDigit
  | _ => false

/-- Model of `main.get_album_year`.  `localYear` stands for
`datetime.datetime.fromtimestamp(ts).year`, the year of the timestamp in
local time. -/
def get_album_year (localYear : Int → Int) (album_timestamp : Int)
    (album_name : String) : String :=
  if startsFourDigits album_name then album_name.take 4
  else if startsTwoDigit2 album_name then "20" ++ album_name.take 2
  else toString (localYear album_timestamp)

/-- The year-resolution policy as the specification words it: *any* two
leading digits are interpreted as a two-digit year and prefixed with "20"
(the code instead requires the first digit to be literally `2`). -/
def get_album_year_claimed (localYear : Int → Int) (album_timestamp : Int)
    (album_name : String) : String :=
  if startsFourDigits album_name then album_name.take 4
  else if (match album_name.data with
           | c0 :: c1 :: _ => c0.isDigit && c1.isDigit
           | _ => false) then "20" ++ album_name.take 2
  else toString (localYear album_timestamp)

/-! ### Filesystem model

Paths are component lists relative to the working directory.  The link
builder's working tree is an association list from paths to entries; the
world outside the working tree (the configured absolute photo roots) is an
existence oracle `world`, and permission failures of `os.symlink` are an
oracle `denied`. -/

abbrev Path := List String

inductive SymTarget where
  | abs (p : Path)
  | rel (p : Path)
deriving DecidableEq, Repr

inductive Entry where
  | dir
  | file
  | symlink (target : SymTarget)
deriving DecidableEq, Repr

abbrev FS := List (Path × Entry)

def getEntry (fs : FS) (p : Path) : Option Entry :=
  match fs with
  | [] => none
  | (q, e) :: rest => if q = p then some e else getEntry rest p

def delEntry (fs : FS) (p : Path) : FS :=
  match fs with
  | [] => []
  | (q, e) :: rest => if q = p then delEntry rest p else (q, e) :: delEntry rest p

def setEntry (fs : FS) (p : Path) (e : Entry) : FS :=
  (p, e) :: delEntry fs p

/-- Resolve `..` and `.` components of a joined relative path. -/
def normPath (p : Path) : Path :=
  p.foldl (fun acc c => if c = ".." then acc.dropLast else if c = "." then acc else acc ++ [c]) []

/-- `Path.exists()`: follows symlinks (with a chain-length fuel); absolute
targets are resolved by the `world` oracle, missing paths do not exist. -/
def fsExists (world : Path → Bool) (fs : FS) : Nat → Path → Bool
  | 0, _ => false
  | fuel + 1, p =>
      match getEntry fs p with
      | none => false
      | some .dir => true
      | some .file => true
      | some (.symlink (.abs t)) => world t
      | some (.symlink (.rel t)) => fsExists world fs fuel (normPath (p.dropLast ++ t))

/-- `mkdir(exist_ok=True)` for one directory level: an existing non-directory
raises `FileExistsError`. -/
def mkdirOne (fs : FS) (p : Path) : Option FS :=
  match getEntry fs p with
  | none => some (setEntry fs p .dir)
  | some .dir => some fs
  | some _ => none

/-- Create a list of directories in order, keeping the partial state if one
level fails (`False` flag = an uncaught `FileExistsError`). -/
def mkdirList (fs : FS) : List Path → FS × Bool
  | [] => (fs, true)
  | q :: qs =>
      match mkdirOne fs q with
      | none => (fs, false)
      | some fs' => mkdirList fs' qs

def prefixesOf (p : Path) : List Path :=
  (List.range p.length).map (fun i => p.take (i + 1))

/-- `Path.mkdir(parents=True, exist_ok=True)`. -/
def mkdirParents (fs : FS) (p : Path) : FS × Bool :=
  mkdirList fs (prefixesOf p)

/-- `link_path.unlink()` wrapped in `try/except: pass`: removes a file or a
symlink; missing paths and directories are left untouched (the exception is
swallowed). -/
def fsUnlink (fs : FS) (p : Path) : FS :=
  match getEntry fs p with
  | some .file => delEntry fs p
  | some (.symlink _) => delEntry fs p
  | _ => fs

/-- `os.symlink(target, p)`: raises if permission is denied or if something
already occupies `p`; the strings stand for the `OSError` text. -/
def fsSymlink (denied : Path → Bool) (fs : FS) (target : SymTarget) (p : Path) :
    Except String FS :=
  if denied p then .error "Permission denied"
  else
    match getEntry fs p with
    | some _ => .error "File exists"
    | none => .ok (setEntry fs p (.symlink target))

/-! ### Link builder (`main.create_album_links`) -/

structure Album where
  id : Nat
  name : String
  owner_user_id : Nat
  create_time : Int
deriving DecidableEq, Repr

structure AlbumItem where
  filename : String
  folder_id : Nat
  owner_user_id : Nat
deriving DecidableEq, Repr

/-- `config.PHOTO_ROOTS` lookup (`PHOTO_ROOTS[owner]` / `owner in PHOTO_ROOTS`). -/
def rlookup (k : Nat) : List (Nat × Path) → Option Path
  | [] => none
  | (k', v) :: rest => if k' = k then some v else rlookup k rest

/-- Run result: either the loop finished, or it stopped with an error (a
failed `assert` or an uncaught exception), keeping the state reached. -/
inductive RRes where
  | ok (fs : FS) (log : List String)
  | err (msg : String) (fs : FS) (log : List String)
deriving DecidableEq, Repr

def missingFolderMsg (folder_id filename albumName : String) : String :=
  "Folder ID " ++ folder_id ++ " not found for " ++ filename ++ " in " ++ albumName

def keyErrorMsg (owner : Nat) : String :=
  "KeyError: " ++ toString owner

def noPhotoRootMsg (owner : Nat) (albumName filename : String) : String :=
  "No photo root configured for owner ID " ++ toString owner ++ " in " ++
    albumName ++ " of " ++ filename

def ownerMismatchMsg (image_owner owner : Nat) (albumName filename : String) : String :=
  "Image owner ID " ++ toString image_owner ++ " does not match owner ID " ++
    toString owner ++ " in " ++ albumName ++ " of " ++ filename

def mkdirErrorMsg (p : Path) : String :=
  "FileExistsError: " ++ String.intercalate "/" p

def symlinkErrorLine (filename e : String) : String :=
  "Error creating symlink for " ++ filename ++ ": " ++ e

/-- `album_name.replace("/", "_")`: the pattern replaced is the single
character `/`, so the call is a character-by-character map. -/
def replSlash (s : String) : String :=
  String.mk (s.data.map (fun c => if c = '/' then '_' else c))

/-- Split a character list at `/`: the components of a POSIX path string. -/
def splitSlashAux : List Char → List Char → List String
  | [], cur => [String.mk cur.reverse]
  | c :: rest, cur =>
      if c = '/' then String.mk cur.reverse :: splitSlashAux rest []
      else splitSlashAux rest (c :: cur)

/-- `pathlib` joining of a string segment: split on "/" and drop empty
components. -/
def pathParts (s : String) : List String :=
  (splitSlashAux s.data []).filter (fun c => c != "")

/-- The per-owner root link step (`main.py` lines 117-121): create
`albums/users/<owner_id>` → absolute photo root if nothing exists at that
path; an `OSError` is written to the log and swallowed. -/
def ownerLinkStep (world denied : Path → Bool) (fs : FS) (log : List String)
    (filename : String) (owner_path owner_link_path : Path) : FS × List String :=
  if fsExists world fs 40 owner_link_path then (fs, log)
  else
    match fsSymlink denied fs (.abs owner_path) owner_link_path with
    | .ok fs' => (fs', log)
    | .error e => (fs, log ++ [symlinkErrorLine filename e])

/-- The per-item link step (`main.py` lines 135-145): unlink any existing
link, then create the relative symlink if nothing exists at the path; an
`OSError` is written to the log and swallowed. -/
def itemLinkStep (world denied : Path → Bool) (fs : FS) (log : List String)
    (filename : String) (source_path link_path : Path) : FS × List String :=
  let fs1 := fsUnlink fs link_path
  if fsExists world fs1 40 link_path then (fs1, log)
  else
    match fsSymlink denied fs1 (.rel source_path) link_path with
    | .ok fs' => (fs', log)
    | .error e => (fs1, log ++ [symlinkErrorLine filename e])

/-- The relative source path of an item link:
`../../users/<owner>/<folder_name[1:]>/<filename>`. -/
def sourcePathOf (image_owner_id : Nat) (folder_name filename : String) : Path :=
  ".." :: ".." :: "users" :: toString image_owner_id ::
    (pathParts (folder_name.drop 1) ++ [filename])

/-- Model of the body of the per-image loop of `main.create_album_links`
(lines 104-145), in source order: the folder-cache assert, the
`PHOTO_ROOTS[image_owner_id]` access, the owner-link parent `mkdir`, the
owner-link step, the photo-root assert for the folder's owner, the
owner-consistency assert, and finally the item-link step. -/
def processItem (roots : List (Nat × Path)) (cache : FolderDict)
    (world denied : Path → Bool) (albumName : String) (album_path : Path)
    (fs : FS) (log : List String) (image : AlbumItem) : RRes :=
  let folder_id := toString image.folder_id
  match dlookup folder_id cache with
  | none => .err (missingFolderMsg folder_id image.filename albumName) fs log
  | some fv =>
      let image_owner_id := image.owner_user_id
      match rlookup image_owner_id roots with
      | none => .err (keyErrorMsg image_owner_id) fs log
      | some owner_path =>
          let owner_link_path : Path := ["albums", "users", toString image_owner_id]
          let m := mkdirParents fs ["albums", "users"]
          if m.2 = false then .err (mkdirErrorMsg ["albums", "users"]) m.1 log
          else
            let s1 := ownerLinkStep world denied m.1 log image.filename
              owner_path owner_link_path
            let folder_name := fv.1
            let owner_id := fv.2
            match rlookup owner_id roots with
            | none => .err (noPhotoRootMsg owner_id albumName image.filename) s1.1 s1.2
            | some _ =>
                let source_path := sourcePathOf image_owner_id folder_name image.filename
                let link_path := album_path ++ [image.filename]
                if image_owner_id = owner_id then
                  let s2 := itemLinkStep world denied s1.1 s1.2 image.filename
                    source_path link_path
                  .ok s2.1 s2.2
                else
                  .err (ownerMismatchMsg image_owner_id owner_id albumName image.filename)
                    s1.1 s1.2

/-- The inner `for image in images` loop; a failed assert stops the run. -/
def processItems (roots : List (Nat × Path)) (cache : FolderDict)
    (world denied : Path → Bool) (albumName : String) (album_path : Path) :
    FS → List String → List AlbumItem → RRes
  | fs, log, [] => .ok fs log
  | fs, log, img :: rest =>
      match processItem roots cache world denied albumName album_path fs log img with
      | .ok fs' log' =>
          processItems roots cache world denied albumName album_path fs' log' rest
      | .err m fs' log' => .err m fs' log'

/-- The album directory of an album: `albums/<year>/<name with "/" → "_">`. -/
def albumPathOf (localYear : Int → Int) (a : Album) : Path :=
  ["albums", get_album_year localYear a.create_time a.name, replSlash a.name]

/-- One iteration of the `for album in albums` loop (lines 95-145). -/
def processAlbum (roots : List (Nat × Path)) (cache : FolderDict)
    (world denied : Path → Bool) (localYear : Int → Int)
    (itemsOf : Nat → List AlbumItem) (fs : FS) (log : List String) (a : Album) : RRes :=
  let album_path := albumPathOf localYear a
  let m := mkdirParents fs album_path
  if m.2 = false then .err (mkdirErrorMsg album_path) m.1 log
  else processItems roots cache world denied a.name album_path m.1 log (itemsOf a.id)

/-- Model of `main.create_album_links`: iterate all albums (the folder cache,
the album list and each album's item list are inputs; the remote calls of the
real code are represented by `itemsOf`). -/
def create_album_links (roots : List (Nat × Path)) (cache : FolderDict)
    (world denied : Path → Bool) (localYear : Int → Int)
    (itemsOf : Nat → List AlbumItem) :
    FS → List String → List Album → RRes
  | fs, log, [] => .ok fs log
  | fs, log, a :: rest =>
      match processAlbum roots cache world denied localYear itemsOf fs log a with
      | .ok fs' log' =>
          create_album_links roots cache world denied localYear itemsOf fs' log' rest
      | .err m fs' log' => .err m fs' log'

/-! ### Effect traces

Every state change the link builder performs is one of three effects at one
path, and the new entry at a touched path depends only on the old entry at
that same path.  This pointwise view drives the idempotence proof. -/

inductive Eff where
  | emkdir
  | eowner (t : Path)
  | elink (t : Path)
deriving DecidableEq, Repr

/-- Pointwise semantics of one effect at one path (`dn` = symlink creation at
this path is permission-denied): the result is the new entry, or `none` when
the run aborts (`mkdir` over a non-directory). -/
def applyEff (dn : Bool) (e : Eff) (v : Option Entry) : Option (Option Entry) :=
  match e, v with
  | .emkdir, none => some (some .dir)
  | .emkdir, some .dir => some (some .dir)
  | .emkdir, some .file => none
  | .emkdir, some (.symlink _) => none
  | .eowner t, none => some (if dn then none else some (.symlink (.abs t)))
  | .eowner _, some e' => some (some e')
  | .elink _, some .dir => some (some .dir)
  | .elink t, none => some (if dn then none else some (.symlink (.rel t)))
  | .elink t, some .file => some (if dn then none else some (.symlink (.rel t)))
  | .elink t, some (.symlink _) => some (if dn then none else some (.symlink (.rel t)))

def applyEffs (dn : Bool) : List Eff → Option Entry → Option (Option Entry)
  | [], v => some v
  | e :: es, v =>
      match applyEff dn e v with
      | none => none
      | some w => applyEffs dn es w

/-- The effect trace of one item: the two parent `mkdir` levels, the
owner-link effect, and the item-link effect. -/
def itemTrace (roots : List (Nat × Path)) (cache : FolderDict) (album_path : Path)
    (image : AlbumItem) : List (Path × Eff) :=
  [(["albums"], Eff.emkdir),
   (["albums", "users"], Eff.emkdir),
   (["albums", "users", toString image.owner_user_id],
     Eff.eowner ((rlookup image.owner_user_id roots).getD [])),
   (album_path ++ [image.filename],
     Eff.elink (sourcePathOf image.owner_user_id
       ((dlookup (toString image.folder_id) cache).getD ("", 0)).1 image.filename))]

/-- The effect trace of one album: its directory levels, then its items. -/
def albumTrace (roots : List (Nat × Path)) (cache : FolderDict)
    (localYear : Int → Int) (itemsOf : Nat → List AlbumItem) (a : Album) :
    List (Path × Eff) :=
  ((prefixesOf (albumPathOf localYear a)).map (fun q => (q, Eff.emkdir))) ++
    ((itemsOf a.id).map (itemTrace roots cache (albumPathOf localYear a))).flatten

/-- The effect trace of the whole run. -/
def runTrace (roots : List (Nat × Path)) (cache : FolderDict)
    (localYear : Int → Int) (itemsOf : Nat → List AlbumItem)
    (albums : List Album) : List (Path × Eff) :=
  (albums.map (albumTrace roots cache localYear itemsOf)).flatten

/-- The effects applied at one particular path, in order. -/
def effsAt : List (Path × Eff) → Path → List Eff
  | [], _ => []
  | (q, e) :: rest, p => if q = p then e :: effsAt rest p else effsAt rest p

/-- All asserts of the per-image loop pass for this item (folder id cached,
both owners configured in `PHOTO_ROOTS`, owners consistent). -/
def assertsPass (roots : List (Nat × Path)) (cache : FolderDict)
    (image : AlbumItem) : Bool :=
  match dlookup (toString image.folder_id) cache with
  | none => false
  | some fv =>
      (rlookup image.owner_user_id roots).isSome &&
      (rlookup fv.2 roots).isSome &&
      (image.owner_user_id == fv.2)

/-- Did the run stop with an error? -/
def RRes.isErr : RRes → Bool
  | .ok _ _ => false
  | .err _ _ _ => true

/-- One filesystem action behaves, at its own path, as the pointwise effect
function, and leaves every other path unchanged. -/
def StepChar (denied : Path → Bool) (pe : Path × Eff) (fs fs' : FS) : Prop :=
  (∀ q, ¬ q = pe.1 → getEntry fs' q = getEntry fs q) ∧
  applyEff (denied pe.1) pe.2 (getEntry fs pe.1) = some (getEntry fs' pe.1)

/-- `fs'` is the pointwise application of the trace `T` to `fs`. -/
def TraceChar (denied : Path → Bool) (T : List (Path × Eff)) (fs fs' : FS) : Prop :=
  ∀ p, applyEffs (denied p) (effsAt T p) (getEntry fs p) = some (getEntry fs' p)

/-- Applying the trace `T` to `fs` aborts at no path. -/
def TraceTotal (denied : Path → Bool) (T : List (Path × Eff)) (fs : FS) : Prop :=
  ∀ p, (applyEffs (denied p) (effsAt T p) (getEntry fs p)).isSome

/-! ### Concrete data for witnesses (mirroring `tests/test_photos.py`) -/

def foldersSub : Folder := .mk 5 "/Photos/SubFolder" 0 (.ok [])
def folders1 : Folder := .mk 1 "/Photos" 0 (.ok [foldersSub])
def folders2 : Folder := .mk 2 "/Photos/2023" 0 (.ok [])
def listingRoot : Listing := .ok [folders1, folders2]
def listingRootSwapped : Listing := .ok [folders2, folders1]
def foldersBroken : Folder := .mk 7 "/Broken" 0 (.fail "API Error")
def listingWithFailure : Listing := .ok [foldersBroken, folders2]

/-! ### Concrete data for the link builder -/

def wRoots : List (Nat × Path) := [(0, ["volume1", "homes", "User1", "Photos"])]

def wCache : FolderDict := [("2", ("/Photos/2023", 0))]

def wWorld : Path → Bool := fun _ => false

def wDenied : Path → Bool := fun _ => false

def wLy : Int → Int := fun _ => 2023

def wAlbum : Album := ⟨1, "2023 Summer", 0, 1672531200⟩

def wItem : AlbumItem := ⟨"photo1.jpg", 2, 0⟩

def wItemsOf : Nat → List AlbumItem := fun i => if i = 1 then [wItem] else []

def wAlbums : List Album := [wAlbum]

/-- The filesystem produced by running the link builder on the data above
from an empty filesystem. -/
def wRunFs : FS :=
  [(["albums", "2023", "2023 Summer", "photo1.jpg"],
      Entry.symlink (SymTarget.rel ["..", "..", "users", "0", "Photos", "2023", "photo1.jpg"])),
   (["albums", "users", "0"],
      Entry.symlink (SymTarget.abs ["volume1", "homes", "User1", "Photos"])),
   (["albums", "users"], Entry.dir),
   (["albums", "2023", "2023 Summer"], Entry.dir),
   (["albums", "2023"], Entry.dir),
   (["albums"], Entry.dir)]

/-- The filesystem produced by one `processItem` call on the data above from
an empty filesystem. -/
def wItemFs : FS :=
  [(["albums", "2023", "2023 Summer", "photo1.jpg"],
      Entry.symlink (SymTarget.rel ["..", "..", "users", "0", "Photos", "2023", "photo1.jpg"])),
   (["albums", "users", "0"],
      Entry.symlink (SymTarget.abs ["volume1", "homes", "User1", "Photos"])),
   (["albums", "users"], Entry.dir),
   (["albums"], Entry.dir)]

def wBadItem : AlbumItem := ⟨"missing.jpg", 9, 0⟩

def wBadItemsOf : Nat → List AlbumItem := fun i => if i = 1 then [wBadItem] else []

def wRoots5 : List (Nat × Path) :=
  [(0, ["volume1", "homes", "User1", "Photos"]),
   (5, ["volume1", "homes", "User5", "Photos"])]

def wCache5 : FolderDict := [("2", ("/Photos/2023", 5))]

/-- Symlink creation denied exactly at the item link path of `wItem`. -/
def wDenied10 : Path → Bool :=
  fun p => decide (p = ["albums", "2023", "2023 Summer", "photo1.jpg"])

/-! ### Dictionary lemmas -/

def dkeys (d : FolderDict) : List String := d.map Prod.fst

@[simp] theorem dkeys_nil : dkeys [] = [] := rfl

@[simp] theorem dkeys_cons (p : String × (String × Nat)) (d : FolderDict) :
    dkeys (p :: d) = p.1 :: dkeys d := rfl

@[simp] theorem dkeys_append (a b : FolderDict) : dkeys (a ++ b) = dkeys a ++ dkeys b := by
  simp [dkeys]

theorem dlookup_dinsert (d : FolderDict) (k : String) (v : String × Nat) (k' : String) :
    dlookup k' (dinsert d k v) = if k = k' then some v else dlookup k' d := by
  induction d with
  | nil => by_cases h : k = k' <;> simp [dinsert, dlookup, h]
  | cons p rest ih =>
      obtain ⟨k0, v0⟩ := p
      by_cases h0 : k0 = k
      · subst h0
        by_cases h : k0 = k' <;> simp [dinsert, dlookup, h]
      · by_cases h : k0 = k'
        · subst h
          have : ¬ k = k0 := fun hh => h0 hh.symm
          simp [dinsert, dlookup, h0, this]
        · simp [dinsert, dlookup, h0, h, ih]

theorem mem_dkeys_dinsert (d : FolderDict) (k : String) (v : String × Nat) (k' : String) :
    k' ∈ dkeys (dinsert d k v) ↔ k' = k ∨ k' ∈ dkeys d := by
  induction d with
  | nil => simp [dinsert]
  | cons p rest ih =>
      obtain ⟨k0, v0⟩ := p
      by_cases h0 : k0 = k
      · subst h0
        simp [dinsert]
      · simp [dinsert, h0, ih]
        tauto

theorem nodup_dkeys_dinsert (d : FolderDict) (k : String) (v : String × Nat)
    (h : (dkeys d).Nodup) : (dkeys (dinsert d k v)).Nodup := by
  induction d with
  | nil => simp [dinsert]
  | cons p rest ih =>
      obtain ⟨k0, v0⟩ := p
      simp only [dkeys_cons, List.nodup_cons] at h
      by_cases h0 : k0 = k
      · subst h0
        simp [dinsert]
        exact h
      · simp only [dinsert, if_neg h0, dkeys_cons, List.nodup_cons]
        constructor
        · intro hmem
          rcases (mem_dkeys_dinsert rest k v k0).mp hmem with h1 | h2
          · exact h0 h1
          · exact h.1 h2
        · exact ih h.2

theorem dinsert_of_not_mem (d : FolderDict) (k : String) (v : String × Nat)
    (h : k ∉ dkeys d) : dinsert d k v = d ++ [(k, v)] := by
  induction d with
  | nil => simp [dinsert]
  | cons p rest ih =>
      obtain ⟨k0, v0⟩ := p
      simp at h
      have hne : ¬ k0 = k := fun hh => h.1 hh.symm
      simp [dinsert, hne, ih h.2]

theorem dlookup_eq_none_iff (d : FolderDict) (k : String) :
    dlookup k d = none ↔ k ∉ dkeys d := by
  induction d with
  | nil => simp [dlookup]
  | cons p rest ih =>
      obtain ⟨k0, v0⟩ := p
      by_cases h : k0 = k
      · subst h
        simp [dlookup]
      · have hne : ¬ k = k0 := fun hh => h hh.symm
        simp [dlookup, h, ih, hne]

theorem dlookup_isSome_iff (d : FolderDict) (k : String) :
    (dlookup k d).isSome ↔ k ∈ dkeys d := by
  rcases hd : dlookup k d with _ | v
  · simp [(dlookup_eq_none_iff d k).mp hd]
  · have hmem : k ∈ dkeys d := by
      by_contra hmem
      have h2 := (dlookup_eq_none_iff d k).mpr hmem
      simp [h2] at hd
    simp [hmem]

theorem dlookup_append (a b : FolderDict) (k : String) :
    dlookup k (a ++ b) =
      match dlookup k a with
      | some v => some v
      | none => dlookup k b := by
  induction a with
  | nil => simp [dlookup]
  | cons p rest ih =>
      obtain ⟨k0, v0⟩ := p
      by_cases h : k0 = k <;> simp [dlookup, h, ih]

theorem dlookup_dupdate_not_mem (d r : FolderDict) (k : String)
    (h : k ∉ dkeys r) : dlookup k (dupdate d r) = dlookup k d := by
  induction r generalizing d with
  | nil => simp [dupdate]
  | cons p rest ih =>
      obtain ⟨k0, v0⟩ := p
      simp at h
      have step : dupdate d ((k0, v0) :: rest) = dupdate (dinsert d k0 v0) rest := rfl
      have hne : ¬ k0 = k := fun hh => h.1 hh.symm
      rw [step, ih _ h.2, dlookup_dinsert]
      simp [hne]

theorem dlookup_dupdate_mem (d r : FolderDict) (k : String) (v : String × Nat)
    (hr : (dkeys r).Nodup) (h : dlookup k r = some v) :
    dlookup k (dupdate d r) = some v := by
  induction r generalizing d with
  | nil => simp [dlookup] at h
  | cons p rest ih =>
      obtain ⟨k0, v0⟩ := p
      simp at hr
      have step : dupdate d ((k0, v0) :: rest) = dupdate (dinsert d k0 v0) rest := rfl
      by_cases hk : k0 = k
      · subst hk
        simp [dlookup] at h
        subst h
        rw [step, dlookup_dupdate_not_mem _ _ _ (by simpa using hr.1)]
        simp [dlookup_dinsert]
      · simp [dlookup, hk] at h
        rw [step, ih _ hr.2 h]

theorem mem_dkeys_dupdate (d r : FolderDict) (k : String) :
    k ∈ dkeys (dupdate d r) ↔ k ∈ dkeys d ∨ k ∈ dkeys r := by
  induction r generalizing d with
  | nil => simp [dupdate]
  | cons p rest ih =>
      obtain ⟨k0, v0⟩ := p
      have step : dupdate d ((k0, v0) :: rest) = dupdate (dinsert d k0 v0) rest := rfl
      rw [step, ih]
      simp [mem_dkeys_dinsert]
      tauto

theorem nodup_dkeys_dupdate (d r : FolderDict) (h : (dkeys d).Nodup) :
    (dkeys (dupdate d r)).Nodup := by
  induction r generalizing d with
  | nil => simpa [dupdate]
  | cons p rest ih =>
      obtain ⟨k0, v0⟩ := p
      have step : dupdate d ((k0, v0) :: rest) = dupdate (dinsert d k0 v0) rest := rfl
      rw [step]
      exact ih _ (nodup_dkeys_dinsert _ _ _ h)

theorem foldl_append_logs (L : List (FolderDict × List String)) (init : List String) :
    L.foldl (fun acc r => acc ++ r.2) init = init ++ (L.map (fun r => r.2)).flatten := by
  induction L generalizing init with
  | nil => simp
  | cons p rest ih => simp [ih, List.append_assoc]

/-! ### Collector characterization -/

theorem collect_ok_cons (sh : Bool) (fid : Nat) (f : Folder) (fs : List Folder) :
    collect_folders_recursive sh fid (.ok (f :: fs)) =
      (mergeResults (baseDict (f :: fs)) (collectChildren sh (f :: fs)),
       ((collectChildren sh (f :: fs)).map (fun r => r.2)).flatten) := by
  simp [collect_folders_recursive, mergeResults, baseDict, foldl_append_logs]

theorem collectChildren_cons (sh : Bool) (g : Folder) (gs : List Folder) :
    collectChildren sh (g :: gs) =
      collect_folders_recursive sh g.id g.listing :: collectChildren sh gs := by
  cases g with
  | mk i n o l => rfl

theorem reachList_cons (g : Folder) (gs : List Folder) :
    reachList (g :: gs) = reachableFolders g.listing ++ reachList gs := by
  cases g with
  | mk i n o l => rfl

theorem allOkList_cons (g : Folder) (gs : List Folder) :
    allOkList (g :: gs) = (allOk g.listing && allOkList gs) := by
  cases g with
  | mk i n o l => rfl

theorem entriesOfList_cons (g : Folder) (gs : List Folder) :
    entriesOfList (g :: gs) = entriesOf g.listing ++ entriesOfList gs := by
  simp [entriesOfList, entriesOf, reachList_cons]

theorem entriesOf_ok (items : List Folder) :
    entriesOf (.ok items) = items.map levelEntry ++ entriesOfList items := by
  simp [entriesOf, reachableFolders, entriesOfList]

theorem dkeys_map_levelEntry (items : List Folder) :
    dkeys (items.map levelEntry) = items.map (fun g => toString g.id) := by
  simp [dkeys, levelEntry, List.map_map]

theorem mem_collectChildren (sh : Bool) (fs : List Folder) (r : FolderDict × List String) :
    r ∈ collectChildren sh fs ↔
      ∃ g ∈ fs, r = collect_folders_recursive sh g.id g.listing := by
  induction fs with
  | nil => simp [collectChildren]
  | cons g gs ih => rw [collectChildren_cons]; simp [ih]

theorem baseDict_go_mem (items : List Folder) (acc : FolderDict) (k : String) :
    k ∈ dkeys (items.foldl
        (fun acc g => dinsert acc (toString g.id) (g.name, g.owner_user_id)) acc) ↔
      k ∈ dkeys acc ∨ ∃ g ∈ items, toString g.id = k := by
  induction items generalizing acc with
  | nil => simp
  | cons g gs ih =>
      simp only [List.foldl_cons]
      rw [ih]
      simp [mem_dkeys_dinsert]
      tauto

theorem mem_dkeys_baseDict (items : List Folder) (k : String) :
    k ∈ dkeys (baseDict items) ↔ ∃ g ∈ items, toString g.id = k := by
  rw [baseDict, baseDict_go_mem]
  simp

theorem baseDict_go_nodup (items : List Folder) (acc : FolderDict)
    (h : (dkeys acc).Nodup) :
    (dkeys (items.foldl
        (fun acc g => dinsert acc (toString g.id) (g.name, g.owner_user_id)) acc)).Nodup := by
  induction items generalizing acc with
  | nil => simpa
  | cons g gs ih =>
      simp only [List.foldl_cons]
      exact ih _ (nodup_dkeys_dinsert _ _ _ h)

theorem baseDict_nodup (items : List Folder) : (dkeys (baseDict items)).Nodup :=
  baseDict_go_nodup items [] (by simp)

theorem baseDict_go_eq (items : List Folder) (acc : FolderDict)
    (h : (dkeys (acc ++ items.map levelEntry)).Nodup) :
    items.foldl
        (fun acc g => dinsert acc (toString g.id) (g.name, g.owner_user_id)) acc =
      acc ++ items.map levelEntry := by
  induction items generalizing acc with
  | nil => simp
  | cons g gs ih =>
      simp only [List.foldl_cons, List.map_cons]
      have hkey : toString g.id ∉ dkeys acc := by
        intro hmem
        rw [dkeys_append] at h
        rcases List.nodup_append.mp h with ⟨_, _, hdisj⟩
        exact hdisj hmem (by simp [levelEntry])
      rw [dinsert_of_not_mem _ _ _ hkey]
      have hassoc : (acc ++ [(toString g.id, (g.name, g.owner_user_id))]) ++ gs.map levelEntry =
          acc ++ (levelEntry g :: gs.map levelEntry) := by
        simp [levelEntry]
      rw [ih _ (by rw [hassoc]; simpa using h), hassoc]

theorem baseDict_eq (items : List Folder)
    (h : (dkeys (items.map levelEntry)).Nodup) :
    baseDict items = items.map levelEntry := by
  rw [baseDict, baseDict_go_eq items [] (by simpa using h)]
  simp

theorem mem_dkeys_mergeResults (base : FolderDict) (rs : List (FolderDict × List String))
    (k : String) :
    k ∈ dkeys (mergeResults base rs) ↔ k ∈ dkeys base ∨ ∃ r ∈ rs, k ∈ dkeys r.1 := by
  induction rs generalizing base with
  | nil => simp [mergeResults]
  | cons r rest ih =>
      have step : mergeResults base (r :: rest) = mergeResults (dupdate base r.1) rest := rfl
      rw [step, ih]
      simp [mem_dkeys_dupdate]
      tauto

theorem nodup_dkeys_mergeResults (base : FolderDict) (rs : List (FolderDict × List String))
    (h : (dkeys base).Nodup) : (dkeys (mergeResults base rs)).Nodup := by
  induction rs generalizing base with
  | nil => simpa [mergeResults]
  | cons r rest ih =>
      have step : mergeResults base (r :: rest) = mergeResults (dupdate base r.1) rest := rfl
      rw [step]
      exact ih _ (nodup_dkeys_dupdate _ _ h)

mutual
/-- The key set of the collected mapping is exactly the key set of the
entries reachable by successful one-level listing calls. -/
theorem collect_keys_iff (sh : Bool) (fid : Nat) (l : Listing) (k : String) :
    k ∈ dkeys (collect_folders_recursive sh fid l).1 ↔ k ∈ dkeys (entriesOf l) := by
  match l with
  | .fail e => simp [collect_folders_recursive, entriesOf, reachableFolders, dkeys]
  | .ok [] => simp [collect_folders_recursive, entriesOf, reachableFolders, reachList, dkeys]
  | .ok (f :: fs) =>
      rw [collect_ok_cons, entriesOf_ok]
      simp only [mem_dkeys_mergeResults, mem_dkeys_baseDict, dkeys_append, List.mem_append,
        dkeys_map_levelEntry, List.mem_map]
      rw [← collect_keys_iff_list sh (f :: fs) k]
termination_by (sizeOf l, 1)

theorem collect_keys_iff_list (sh : Bool) (fs : List Folder) (k : String) :
    (∃ r ∈ collectChildren sh fs, k ∈ dkeys r.1) ↔ k ∈ dkeys (entriesOfList fs) := by
  match fs with
  | [] => simp [collectChildren, entriesOfList, reachList]
  | .mk i n o l :: gs =>
      rw [collectChildren_cons, entriesOfList_cons]
      simp only [Folder.id, Folder.listing, List.mem_cons, dkeys_append, List.mem_append]
      constructor
      · rintro ⟨r, hr | hr, hk⟩
        · subst hr
          exact Or.inl ((collect_keys_iff sh i l k).mp hk)
        · exact Or.inr ((collect_keys_iff_list sh gs k).mp ⟨r, hr, hk⟩)
      · rintro (hk | hk)
        · exact ⟨_, Or.inl rfl, (collect_keys_iff sh i l k).mpr hk⟩
        · obtain ⟨r, hr, hk'⟩ := (collect_keys_iff_list sh gs k).mpr hk
          exact ⟨r, Or.inr hr, hk'⟩
termination_by (sizeOf fs, 0)
end

theorem collect_nodup (sh : Bool) (fid : Nat) (l : Listing) :
    (dkeys (collect_folders_recursive sh fid l).1).Nodup := by
  match l with
  | .fail e => simp [collect_folders_recursive, dkeys]
  | .ok [] => simp [collect_folders_recursive, dkeys]
  | .ok (f :: fs) =>
      rw [collect_ok_cons]
      exact nodup_dkeys_mergeResults _ _ (baseDict_nodup _)

mutual
/-- Under globally unique keys, the collected mapping looks up exactly like
the reachable-entries association list. -/
theorem collect_val (sh : Bool) (fid : Nat) (l : Listing)
    (hnd : (dkeys (entriesOf l)).Nodup) (k : String) :
    dlookup k (collect_folders_recursive sh fid l).1 = dlookup k (entriesOf l) := by
  match l with
  | .fail e => simp [collect_folders_recursive, entriesOf, reachableFolders]
  | .ok [] => simp [collect_folders_recursive, entriesOf, reachableFolders, reachList]
  | .ok (f :: fs) =>
      rw [collect_ok_cons, entriesOf_ok]
      rw [entriesOf_ok] at hnd
      simp only [dkeys_append] at hnd
      rcases List.nodup_append.mp hnd with ⟨hnd1, hnd2, hdisj⟩
      rw [collect_val_list sh (f :: fs) hnd2 k (baseDict (f :: fs))]
      rw [baseDict_eq _ hnd1, dlookup_append]
      rcases hlev : dlookup k ((f :: fs).map levelEntry) with _ | v
      · rcases dlookup k (entriesOfList (f :: fs)) with _ | w <;> simp
      · have hmem : k ∈ dkeys ((f :: fs).map levelEntry) := by
          rw [← dlookup_isSome_iff, hlev]
          rfl
        have hnot : k ∉ dkeys (entriesOfList (f :: fs)) := fun hk => hdisj hmem hk
        rw [(dlookup_eq_none_iff _ _).mpr hnot]
termination_by (sizeOf l, 1)

theorem collect_val_list (sh : Bool) (fs : List Folder)
    (hnd : (dkeys (entriesOfList fs)).Nodup) (k : String) (base : FolderDict) :
    dlookup k (mergeResults base (collectChildren sh fs)) =
      match dlookup k (entriesOfList fs) with
      | some v => some v
      | none => dlookup k base := by
  match fs with
  | [] => simp [collectChildren, mergeResults, entriesOfList, reachList, dlookup]
  | .mk i n o l :: gs =>
      rw [collectChildren_cons, entriesOfList_cons]
      simp only [Folder.id, Folder.listing]
      rw [entriesOfList_cons] at hnd
      simp only [Folder.listing, dkeys_append] at hnd
      rcases List.nodup_append.mp hnd with ⟨hnd1, hnd2, hdisj⟩
      have step : mergeResults base
            (collect_folders_recursive sh i l :: collectChildren sh gs) =
          mergeResults (dupdate base (collect_folders_recursive sh i l).1)
            (collectChildren sh gs) := rfl
      rw [step, collect_val_list sh gs hnd2 k _, dlookup_append]
      rcases hg : dlookup k (entriesOf l) with _ | v
      · have hnotc : k ∉ dkeys (collect_folders_recursive sh i l).1 := by
          rw [collect_keys_iff]
          exact (dlookup_eq_none_iff _ _).mp hg
        rw [dlookup_dupdate_not_mem _ _ _ hnotc]
      · have hmem : k ∈ dkeys (entriesOf l) := by
          rw [← dlookup_isSome_iff, hg]
          rfl
        have hnot : k ∉ dkeys (entriesOfList gs) := fun hk => hdisj hmem hk
        rw [(dlookup_eq_none_iff _ _).mpr hnot]
        have hc : dlookup k (collect_folders_recursive sh i l).1 = some v := by
          rw [collect_val sh i l hnd1 k, hg]
        exact dlookup_dupdate_mem _ _ _ _ (collect_nodup sh i l) hc
termination_by (sizeOf fs, 0)
end

mutual
/-- Any reachable folder whose own listing call fails contributes its error
line to the collector's log output. -/
theorem collect_logmem (sh : Bool) (fid : Nat) (l : Listing) (f : Folder) (e : String)
    (hf : f ∈ reachableFolders l) (he : f.listing = .fail e) :
    fetchErrorMsg sh f.id e ∈ (collect_folders_recursive sh fid l).2 := by
  match l with
  | .fail e' => simp [reachableFolders] at hf
  | .ok [] => simp [reachableFolders, reachList] at hf
  | .ok (g :: gs) =>
      rw [collect_ok_cons]
      simp only [reachableFolders, List.mem_append] at hf
      simp only [List.mem_flatten, List.mem_map]
      rcases hf with hf | hf
      · refine ⟨(collect_folders_recursive sh f.id f.listing).2,
          ⟨collect_folders_recursive sh f.id f.listing,
            (mem_collectChildren sh (g :: gs) _).mpr ⟨f, hf, rfl⟩, rfl⟩, ?_⟩
        rw [he]
        simp [collect_folders_recursive]
      · obtain ⟨r, hr, hmsg⟩ := collect_logmem_list sh (g :: gs) f e hf he
        exact ⟨r.2, ⟨r, hr, rfl⟩, hmsg⟩
termination_by (sizeOf l, 1)

theorem collect_logmem_list (sh : Bool) (fs : List Folder) (f : Folder) (e : String)
    (hf : f ∈ reachList fs) (he : f.listing = .fail e) :
    ∃ r ∈ collectChildren sh fs, fetchErrorMsg sh f.id e ∈ r.2 := by
  match fs with
  | [] => simp [reachList] at hf
  | .mk i n o l :: gs =>
      rw [reachList_cons] at hf
      rw [collectChildren_cons]
      simp only [Folder.id, Folder.listing] at hf ⊢
      rcases List.mem_append.mp hf with hf | hf
      · exact ⟨collect_folders_recursive sh i l, List.mem_cons_self _ _,
          collect_logmem sh i l f e hf he⟩
      · obtain ⟨r, hr, hmsg⟩ := collect_logmem_list sh gs f e hf he
        exact ⟨r, List.mem_cons_of_mem _ hr, hmsg⟩
termination_by (sizeOf fs, 0)
end


/-! ### Cache round-trip (C2) -/

/-- **C2**: For every folder mapping, saving it to the cache file and then
loading that file back yields a mapping equal to the original, key for key
and value for value (save followed by load is the identity on mappings). -/
theorem c2_cache_save_load_roundtrip (d : FolderDict) :
    load_cached_folders_json (cache_folders_json d) = some d := by
  simp only [cache_folders_json, load_cached_folders_json]
  induction d with
  | nil => rfl
  | cons kv rest ih =>
      obtain ⟨k, n, o⟩ := kv
      simp only [List.map_cons, decodeEntries, decodeEntry] at ih ⊢
      rw [ih]

/-! ### Album year resolution (C3) -/

/-- **C3 counterexample**: the claim says any name starting with two digits
resolves to "20" prepended to them, so "45 Party" should give "2045"; the
code's second pattern is `^(2\d)` (a literal leading '2'), so "45 Party"
falls through to the timestamp year instead. -/
theorem c3_counterexample :
    get_album_year_claimed (fun _ => 1999) 0 "45 Party" = "2045" ∧
    get_album_year (fun _ => 1999) 0 "45 Party" = "1999" ∧
    ¬ get_album_year (fun _ => 1999) 0 "45 Party" =
        get_album_year_claimed (fun _ => 1999) 0 "45 Party" := by
  refine ⟨by decide, by decide, by decide⟩

/-- **C3 (amended)**: the resolved year is: the four leading characters when
they are all digits; otherwise, when the name starts with the literal digit
'2' followed by another digit, "20" prepended to those two characters;
otherwise the year of the creation timestamp in local time.  The examples
"2023 Summer" → "2023", "23 Trip" → "2023", and "Vacation" created in 2021
→ "2021" hold. -/
theorem c3_get_album_year_amended (localYear : Int → Int) (ts : Int) (name : String) :
    (∀ c0 c1 c2 c3 rest, name.data = c0 :: c1 :: c2 :: c3 :: rest →
      (c0.isDigit && c1.isDigit && c2.isDigit && c3.isDigit) = true →
      get_album_year localYear ts name = name.take 4) ∧
    (∀ c1 rest, name.data = '2' :: c1 :: rest → c1.isDigit = true →
      startsFourDigits name = false →
      get_album_year localYear ts name = "20" ++ name.take 2) ∧
    (startsFourDigits name = false → startsTwoDigit2 name = false →
      get_album_year localYear ts name = toString (localYear ts)) ∧
    get_album_year localYear ts "2023 Summer" = "2023" ∧
    get_album_year localYear ts "23 Trip" = "2023" ∧
    (localYear ts = 2021 → get_album_year localYear ts "Vacation" = "2021") := by
  refine ⟨?_, ?_, ?_, ?_, ?_, ?_⟩
  · intro c0 c1 c2 c3 rest h hd
    have h4 : startsFourDigits name = true := by
      simp [startsFourDigits, h]
      simp at hd
      tauto
    simp [get_album_year, h4]
  · intro c1 rest h hd h4
    have h2 : startsTwoDigit2 name = true := by
      simp [startsTwoDigit2, h, hd]
    simp [get_album_year, h4, h2]
  · intro h4 h2
    simp [get_album_year, h4, h2]
  · have h4 : startsFourDigits "2023 Summer" = true := by decide
    simp only [get_album_year, h4, if_true]
    decide
  · have h4 : startsFourDigits "23 Trip" = false := by decide
    have h2 : startsTwoDigit2 "23 Trip" = true := by decide
    simp only [get_album_year, h4, h2, if_true, Bool.false_eq_true, if_false]
    decide
  · intro hy
    have h4 : startsFourDigits "Vacation" = false := by decide
    have h2 : startsTwoDigit2 "Vacation" = false := by decide
    simp only [get_album_year, h4, h2, Bool.false_eq_true, if_false, hy]
    decide

/-- Witness for C3 (amended) at the specification's three examples. -/
theorem c3_witness :
    get_album_year (fun _ => 2021) 0 "2023 Summer" = "2023" ∧
    get_album_year (fun _ => 2021) 0 "23 Trip" = "2023" ∧
    get_album_year (fun _ => 2021) 0 "Vacation" = "2021" :=
  ⟨(c3_get_album_year_amended (fun _ => 2021) 0 "2023 Summer").2.2.2.1,
   (c3_get_album_year_amended (fun _ => 2021) 0 "23 Trip").2.2.2.2.1,
   (c3_get_album_year_amended (fun _ => 2021) 0 "Vacation").2.2.2.2.2 rfl⟩


/-! ### Lookup membership and permutation lemmas -/

theorem mem_of_dlookup (d : FolderDict) (k : String) (v : String × Nat)
    (h : dlookup k d = some v) : (k, v) ∈ d := by
  induction d with
  | nil => simp [dlookup] at h
  | cons p rest ih =>
      obtain ⟨k0, v0⟩ := p
      by_cases h0 : k0 = k
      · subst h0
        simp [dlookup] at h
        subst h
        exact List.mem_cons_self _ _
      · simp [dlookup, h0] at h
        exact List.mem_cons_of_mem _ (ih h)

theorem dlookup_of_mem (d : FolderDict) (k : String) (v : String × Nat)
    (hnd : (dkeys d).Nodup) (h : (k, v) ∈ d) : dlookup k d = some v := by
  induction d with
  | nil => simp at h
  | cons p rest ih =>
      obtain ⟨k0, v0⟩ := p
      simp only [dkeys_cons, List.nodup_cons] at hnd
      rcases List.mem_cons.mp h with h1 | h1
      · rw [Prod.mk.injEq] at h1
        obtain ⟨hk, hv⟩ := h1
        subst hk
        subst hv
        simp [dlookup]
      · have hne : ¬ k0 = k := by
          intro he
          subst he
          exact hnd.1 (List.mem_map_of_mem Prod.fst h1)
        simp only [dlookup, if_neg hne]
        exact ih hnd.2 h1

theorem dlookup_perm (a b : FolderDict) (h : a.Perm b)
    (hnd : (dkeys a).Nodup) (k : String) : dlookup k a = dlookup k b := by
  have hkeys : (dkeys a).Perm (dkeys b) := h.map Prod.fst
  have hndb : (dkeys b).Nodup := hkeys.nodup hnd
  rcases ha : dlookup k a with _ | v
  · have h1 : k ∉ dkeys a := (dlookup_eq_none_iff a k).mp ha
    have h2 : k ∉ dkeys b := fun hk => h1 (hkeys.mem_iff.mpr hk)
    exact ((dlookup_eq_none_iff b k).mpr h2).symm
  · exact (dlookup_of_mem b k v hndb (h.mem_iff.mp (mem_of_dlookup a k v ha))).symm

/-! ### C1: collector correctness and order independence -/

/-- **C1**: For every folder tree (all listing calls succeeding) and root
folder id, the collected mapping's key set equals the set of folder ids
reachable from the root by repeated one-level listing calls, with each
reachable id mapped to that folder's (name, owner id); and the mapping is
independent of the order in which sibling subtrees are traversed and merged:
any tree carrying the same reachable entries in any order (and any flag/root
id) collects to an equal mapping. -/
theorem c1_collect_folders_correct (sh sh' : Bool) (fid fid' : Nat) (l l' : Listing)
    (_hok : allOk l = true)
    (hnd : (dkeys (entriesOf l)).Nodup)
    (hperm : (entriesOf l).Perm (entriesOf l')) :
    (∀ k, k ∈ dkeys (collect_folders_recursive sh fid l).1 ↔
      ∃ f ∈ reachableFolders l, toString f.id = k) ∧
    (∀ f ∈ reachableFolders l,
      dlookup (toString f.id) (collect_folders_recursive sh fid l).1 =
        some (f.name, f.owner_user_id)) ∧
    (∀ k, dlookup k (collect_folders_recursive sh fid l).1 =
      dlookup k (collect_folders_recursive sh' fid' l').1) := by
  have hnd' : (dkeys (entriesOf l')).Nodup := (hperm.map Prod.fst).nodup hnd
  refine ⟨?_, ?_, ?_⟩
  · intro k
    rw [collect_keys_iff, entriesOf, dkeys_map_levelEntry, List.mem_map]
  · intro f hf
    rw [collect_val sh fid l hnd]
    exact dlookup_of_mem _ _ _ hnd (List.mem_map_of_mem levelEntry hf)
  · intro k
    rw [collect_val sh fid l hnd, collect_val sh' fid' l' hnd']
    exact dlookup_perm _ _ hperm hnd k

/-- Witness for C1 at the mock folder tree of the repository's tests, with
the sibling subtrees traversed in swapped order. -/
theorem c1_witness :
    (allOk listingRoot = true ∧
      (dkeys (entriesOf listingRoot)).Nodup ∧
      (entriesOf listingRoot).Perm (entriesOf listingRootSwapped)) ∧
    (∀ k, dlookup k (collect_folders_recursive false 0 listingRoot).1 =
      dlookup k (collect_folders_recursive true 1 listingRootSwapped).1) :=
  ⟨⟨by decide, by decide, by decide⟩,
   (c1_collect_folders_correct false true 0 1 listingRoot listingRootSwapped
      (by decide) (by decide) (by decide)).2.2⟩

/-! ### C7: partial failure isolation -/

/-- **C7**: a failing listing call is logged with the folder id and tree type
and contributes an empty mapping for its subtree; entries reachable through
succeeding calls are always present in the final mapping (and, under unique
ids, keep their recorded values) — a failure in one branch never drops
entries collected from sibling branches. -/
theorem c7_partial_failure_isolation (sh : Bool) (fid : Nat) (e : String) (l : Listing) :
    collect_folders_recursive sh fid (.fail e) = ([], [fetchErrorMsg sh fid e]) ∧
    (∀ f ∈ reachableFolders l, f.listing = .fail e →
      fetchErrorMsg sh f.id e ∈ (collect_folders_recursive sh fid l).2) ∧
    (∀ k, (∃ f ∈ reachableFolders l, toString f.id = k) →
      k ∈ dkeys (collect_folders_recursive sh fid l).1) ∧
    ((dkeys (entriesOf l)).Nodup → ∀ f ∈ reachableFolders l,
      dlookup (toString f.id) (collect_folders_recursive sh fid l).1 =
        some (f.name, f.owner_user_id)) := by
  refine ⟨by simp [collect_folders_recursive], ?_, ?_, ?_⟩
  · exact fun f hf he => collect_logmem sh fid l f e hf he
  · intro k hk
    rw [collect_keys_iff, entriesOf, dkeys_map_levelEntry, List.mem_map]
    exact hk
  · intro hnd f hf
    rw [collect_val sh fid l hnd]
    exact dlookup_of_mem _ _ _ hnd (List.mem_map_of_mem levelEntry hf)

/-- Witness for C7: in a tree where folder 7's listing fails and its sibling
folder 2 succeeds, the error line for 7 is logged and 2 is still collected. -/
theorem c7_witness :
    (foldersBroken ∈ reachableFolders listingWithFailure ∧
      foldersBroken.listing = .fail "API Error") ∧
    fetchErrorMsg false 7 "API Error" ∈
      (collect_folders_recursive false 0 listingWithFailure).2 ∧
    "2" ∈ dkeys (collect_folders_recursive false 0 listingWithFailure).1 := by
  have hmem : foldersBroken ∈ reachableFolders listingWithFailure := by
    simp [listingWithFailure, reachableFolders, reachList]
  have hfail : foldersBroken.listing = .fail "API Error" := rfl
  refine ⟨⟨hmem, hfail⟩, ?_, ?_⟩
  · exact (c7_partial_failure_isolation false 0 "API Error" listingWithFailure).2.1
      foldersBroken hmem hfail
  · exact (c7_partial_failure_isolation false 0 "API Error" listingWithFailure).2.2.1
      "2" ⟨folders2, by simp [listingWithFailure, reachableFolders, reachList], by decide⟩
/-! ### Filesystem primitive lemmas -/

theorem getEntry_delEntry (fs : FS) (p q : Path) :
    getEntry (delEntry fs p) q = if p = q then none else getEntry fs q := by
  induction fs with
  | nil => simp [delEntry, getEntry]
  | cons pe rest ih =>
      obtain ⟨r, e⟩ := pe
      by_cases hr : r = p
      · subst hr
        by_cases hq : r = q
        · subst hq
          simp [delEntry, getEntry, ih]
        · have : ¬ r = q := hq
          simp [delEntry, getEntry, this, ih]
      · by_cases hq : r = q
        · subst hq
          have : ¬ p = r := fun h => hr h.symm
          simp [delEntry, getEntry, hr, this]
        · simp [delEntry, getEntry, hr, hq, ih]

theorem getEntry_setEntry (fs : FS) (p : Path) (e : Entry) (q : Path) :
    getEntry (setEntry fs p e) q = if p = q then some e else getEntry fs q := by
  by_cases h : p = q
  · subst h
    simp [setEntry, getEntry]
  · simp [setEntry, getEntry, h, getEntry_delEntry]

theorem fsExists_of_none (world : Path → Bool) (fs : FS) (fuel : Nat) (p : Path)
    (h : getEntry fs p = none) : fsExists world fs (fuel + 1) p = false := by
  simp [fsExists, h]

theorem getEntry_isSome_of_fsExists (world : Path → Bool) (fs : FS) (fuel : Nat) (p : Path)
    (h : fsExists world fs (fuel + 1) p = true) : (getEntry fs p).isSome := by
  rcases hg : getEntry fs p with _ | e
  · rw [fsExists_of_none world fs fuel p hg] at h
    exact absurd h (by simp)
  · rfl

/-! ### Digit-character facts (year strings never collide with "users", ".." or ".") -/

theorem digitChar_isDigit (m : Nat) (h : m < 10) : (Nat.digitChar m).isDigit = true := by
  interval_cases m <;> decide

theorem toDigitsCore_digits (fuel : Nat) : ∀ (n : Nat) (acc : List Char),
    (∀ c ∈ acc, c.isDigit = true) →
    ∀ c ∈ Nat.toDigitsCore 10 fuel n acc, c.isDigit = true := by
  induction fuel with
  | zero => intro n acc hacc c hc; exact hacc c hc
  | succ fuel ih =>
      intro n acc hacc c hc
      unfold Nat.toDigitsCore at hc
      simp only at hc
      by_cases hdiv : n / 10 = 0
      · rw [if_pos hdiv] at hc
        rcases List.mem_cons.mp hc with h1 | h1
        · subst h1; exact digitChar_isDigit _ (Nat.mod_lt _ (by omega))
        · exact hacc c h1
      · rw [if_neg hdiv] at hc
        refine ih (n / 10) _ ?_ c hc
        intro c' hc'
        rcases List.mem_cons.mp hc' with h1 | h1
        · subst h1; exact digitChar_isDigit _ (Nat.mod_lt _ (by omega))
        · exact hacc c' h1

theorem nat_repr_digits (n : Nat) : ∀ c ∈ (Nat.repr n).data, c.isDigit = true := by
  intro c hc
  have hrw : (Nat.repr n).data = Nat.toDigits 10 n := rfl
  rw [hrw] at hc
  exact toDigitsCore_digits _ n [] (by simp) c hc

theorem int_toString_chars (i : Int) :
    ∀ c ∈ (toString i).data, c.isDigit = true ∨ c = '-' := by
  intro c hc
  cases i with
  | ofNat m =>
      have hrw : toString (Int.ofNat m) = Nat.repr m := rfl
      rw [hrw] at hc
      exact Or.inl (nat_repr_digits m c hc)
  | negSucc m =>
      have hrw : toString (Int.negSucc m) = "-" ++ Nat.repr (m + 1) := rfl
      rw [hrw] at hc
      simp [String.data_append] at hc
      rcases hc with h1 | h1
      · exact Or.inr h1
      · exact Or.inl (nat_repr_digits (m + 1) c h1)

theorem nat_toString_chars (n : Nat) : ∀ c ∈ (toString n).data, c.isDigit = true := by
  intro c hc
  exact nat_repr_digits n c hc

/-- Every character of a resolved year string is a digit or '-'. -/
theorem get_album_year_chars (ly : Int → Int) (ts : Int) (name : String) :
    ∀ c ∈ (get_album_year ly ts name).data, c.isDigit = true ∨ c = '-' := by
  intro c hc
  unfold get_album_year at hc
  by_cases h4 : startsFourDigits name = true
  · rw [if_pos h4] at hc
    unfold startsFourDigits at h4
    rcases hdata : name.data with _ | ⟨c0, _ | ⟨c1, _ | ⟨c2, _ | ⟨c3, rest⟩⟩⟩⟩ <;>
      rw [hdata] at h4 <;> simp at h4
    rw [String.data_take, hdata] at hc
    simp at hc
    rcases hc with h | h | h | h <;> subst h <;> exact Or.inl (by tauto)
  · rw [if_neg h4] at hc
    by_cases h2 : startsTwoDigit2 name = true
    · rw [if_pos h2] at hc
      unfold startsTwoDigit2 at h2
      rcases hdata : name.data with _ | ⟨c0, _ | ⟨c1, rest⟩⟩ <;>
        rw [hdata] at h2 <;> simp at h2
      rw [String.data_append, String.data_take, hdata] at hc
      simp at hc
      rcases hc with h | h | h | h
      · subst h; exact Or.inl (by decide)
      · subst h; exact Or.inl (by decide)
      · subst h; exact Or.inl (by rw [h2.1]; decide)
      · subst h; exact Or.inl h2.2
    · rw [if_neg h2] at hc
      exact int_toString_chars _ c hc

theorem get_album_year_ne_users (ly : Int → Int) (ts : Int) (name : String) :
    ¬ get_album_year ly ts name = "users" := by
  intro h
  have hu : 'u' ∈ (get_album_year ly ts name).data := by
    rw [h]
    decide
  rcases get_album_year_chars ly ts name 'u' hu with h1 | h1 <;> simp at h1

theorem get_album_year_ne_dotdot (ly : Int → Int) (ts : Int) (name : String) :
    ¬ get_album_year ly ts name = ".." := by
  intro h
  have hu : '.' ∈ (get_album_year ly ts name).data := by
    rw [h]
    decide
  rcases get_album_year_chars ly ts name '.' hu with h1 | h1 <;> simp at h1

theorem get_album_year_ne_dot (ly : Int → Int) (ts : Int) (name : String) :
    ¬ get_album_year ly ts name = "." := by
  intro h
  have hu : '.' ∈ (get_album_year ly ts name).data := by
    rw [h]
    decide
  rcases get_album_year_chars ly ts name '.' hu with h1 | h1 <;> simp at h1

theorem nat_toString_ne_users (n : Nat) : ¬ toString n = "users" := by
  intro h
  have hu : 'u' ∈ (toString n).data := by
    rw [h]
    decide
  have := nat_toString_chars n 'u' hu
  simp at this

theorem nat_toString_ne_dotdot (n : Nat) : ¬ toString n = ".." := by
  intro h
  have hu : '.' ∈ (toString n).data := by
    rw [h]
    decide
  have := nat_toString_chars n '.' hu
  simp at this

theorem nat_toString_ne_dot (n : Nat) : ¬ toString n = "." := by
  intro h
  have hu : '.' ∈ (toString n).data := by
    rw [h]
    decide
  have := nat_toString_chars n '.' hu
  simp at this

/-! ### Effect-sequence lemmas -/

theorem applyEffs_cons (dn : Bool) (e : Eff) (es : List Eff) (v : Option Entry) :
    applyEffs dn (e :: es) v =
      match applyEff dn e v with
      | none => none
      | some w => applyEffs dn es w := rfl

theorem applyEffs_cons_some (dn : Bool) (e : Eff) (es : List Eff) (v u : Option Entry)
    (ha : applyEff dn e v = some u) :
    applyEffs dn (e :: es) v = applyEffs dn es u := by
  rw [applyEffs_cons, ha]

theorem applyEffs_cons_none (dn : Bool) (e : Eff) (es : List Eff) (v : Option Entry)
    (ha : applyEff dn e v = none) :
    applyEffs dn (e :: es) v = none := by
  rw [applyEffs_cons, ha]

theorem applyEffs_append (dn : Bool) (es1 es2 : List Eff) (v : Option Entry) :
    applyEffs dn (es1 ++ es2) v =
      match applyEffs dn es1 v with
      | none => none
      | some w => applyEffs dn es2 w := by
  induction es1 generalizing v with
  | nil => simp [applyEffs]
  | cons e es ih =>
      rcases ha : applyEff dn e v with _ | u
      · rw [List.cons_append, applyEffs_cons_none dn e _ v ha,
          applyEffs_cons_none dn e es v ha]
      · rw [List.cons_append, applyEffs_cons_some dn e _ v u ha,
          applyEffs_cons_some dn e es v u ha]
        exact ih u

theorem effsAt_cons (q : Path) (e : Eff) (rest : List (Path × Eff)) (p : Path) :
    effsAt ((q, e) :: rest) p = if q = p then e :: effsAt rest p else effsAt rest p := rfl

theorem effsAt_append (T1 T2 : List (Path × Eff)) (p : Path) :
    effsAt (T1 ++ T2) p = effsAt T1 p ++ effsAt T2 p := by
  induction T1 with
  | nil => simp [effsAt]
  | cons pe rest ih =>
      obtain ⟨q, e⟩ := pe
      by_cases h : q = p <;> simp [effsAt, h, ih]

theorem mem_of_mem_effsAt (T : List (Path × Eff)) (p : Path) (e : Eff)
    (h : e ∈ effsAt T p) : (p, e) ∈ T := by
  induction T with
  | nil => simp [effsAt] at h
  | cons pe rest ih =>
      obtain ⟨q, e0⟩ := pe
      by_cases hq : q = p
      · subst hq
        rw [effsAt_cons, if_pos rfl] at h
        rcases List.mem_cons.mp h with h1 | h1
        · subst h1
          exact List.mem_cons_self _ _
        · exact List.mem_cons_of_mem _ (ih h1)
      · rw [effsAt_cons, if_neg hq] at h
        exact List.mem_cons_of_mem _ (ih h)

theorem applyEffs_dir_total (dn : Bool) (E : List Eff) :
    applyEffs dn E (some .dir) = some (some .dir) := by
  induction E with
  | nil => rfl
  | cons e es ih =>
      have hstep : applyEff dn e (some Entry.dir) = some (some Entry.dir) := by
        cases e <;> rfl
      rw [applyEffs_cons_some dn e es _ _ hstep]
      exact ih

theorem applyEffs_none_out (dn : Bool) (E : List Eff) (v : Option Entry)
    (h : applyEffs dn E v = some none) : dn = true ∨ (E = [] ∧ v = none) := by
  induction E generalizing v with
  | nil =>
      simp [applyEffs] at h
      exact Or.inr ⟨rfl, h⟩
  | cons e es ih =>
      rcases ha : applyEff dn e v with _ | u
      · rw [applyEffs_cons_none dn e es v ha] at h
        simp at h
      · rw [applyEffs_cons_some dn e es v u ha] at h
        rcases ih u h with h1 | ⟨h1, h2⟩
        · exact Or.inl h1
        · subst h1
          subst h2
          cases dn
          · exfalso
            cases e <;> rcases v with _ | ev
            · simp [applyEff] at ha
            · cases ev <;> simp [applyEff] at ha
            · simp [applyEff] at ha
            · simp [applyEff] at ha
            · simp [applyEff] at ha
            · cases ev <;> simp [applyEff] at ha
          · exact Or.inl rfl

theorem applyEffs_idem (dn : Bool) (E : List Eff) (v w : Option Entry)
    (h : applyEffs dn E v = some w) : applyEffs dn E w = some w := by
  induction E generalizing v w with
  | nil =>
      rfl
  | cons e es ih =>
      rcases ha : applyEff dn e v with _ | u
      · rw [applyEffs_cons_none dn e es v ha] at h
        simp at h
      · rw [applyEffs_cons_some dn e es v u ha] at h
        cases e with
        | emkdir =>
            have hu : u = some .dir := by
              rcases v with _ | ev
              · simp [applyEff] at ha
                exact ha.symm
              · cases ev <;> simp [applyEff] at ha
                exact ha.symm
            subst hu
            have hw : w = some .dir := by
              have h3 := h
              rw [applyEffs_dir_total] at h3
              exact (Option.some.inj h3).symm
            subst hw
            rw [applyEffs_cons_some dn Eff.emkdir es (some .dir) (some .dir) rfl]
            exact applyEffs_dir_total dn es
        | eowner t =>
            rcases hw : w with _ | ew
            · subst hw
              have hdn : dn = true := by
                rcases applyEffs_none_out dn es u h with h1 | ⟨h1, h2⟩
                · exact h1
                · subst h1
                  subst h2
                  rcases v with _ | ev
                  · simp [applyEff] at ha
                    rcases dn with _ | _
                    · simp at ha
                    · rfl
                  · simp [applyEff] at ha
              subst hdn
              rw [applyEffs_cons_some true (Eff.eowner t) es none none rfl]
              exact ih u none h
            · subst hw
              rw [applyEffs_cons_some dn (Eff.eowner t) es (some ew) (some ew) rfl]
              exact ih u (some ew) h
        | elink t =>
            by_cases hwd : w = some Entry.dir
            · subst hwd
              rw [applyEffs_cons_some dn (Eff.elink t) es (some .dir) (some .dir) rfl]
              exact applyEffs_dir_total dn es
            · rcases hdn : dn with _ | _
              · subst hdn
                have hu : u = some (Entry.symlink (SymTarget.rel t)) := by
                  rcases v with _ | ev
                  · simp [applyEff] at ha
                    exact ha.symm
                  · cases ev
                    · exfalso
                      have hud : u = some Entry.dir := by
                        simp [applyEff] at ha
                        exact ha.symm
                      subst hud
                      rw [applyEffs_dir_total] at h
                      exact hwd (Option.some.inj h).symm
                    · simp [applyEff] at ha
                      exact ha.symm
                    · simp [applyEff] at ha
                      exact ha.symm
                subst hu
                have hstep : applyEff false (Eff.elink t) w =
                    some (some (Entry.symlink (SymTarget.rel t))) := by
                  rcases w with _ | ew
                  · rfl
                  · cases ew
                    · exact absurd rfl hwd
                    · rfl
                    · rfl
                rw [applyEffs_cons_some false (Eff.elink t) es w _ hstep]
                exact h
              · subst hdn
                have hu : u = none := by
                  rcases v with _ | ev
                  · simp [applyEff] at ha
                    exact ha.symm
                  · cases ev
                    · exfalso
                      have hud : u = some Entry.dir := by
                        simp [applyEff] at ha
                        exact ha.symm
                      subst hud
                      rw [applyEffs_dir_total] at h
                      exact hwd (Option.some.inj h).symm
                    · simp [applyEff] at ha
                      exact ha.symm
                    · simp [applyEff] at ha
                      exact ha.symm
                subst hu
                have hstep : applyEff true (Eff.elink t) w = some none := by
                  rcases w with _ | ew
                  · rfl
                  · cases ew
                    · exact absurd rfl hwd
                    · rfl
                    · rfl
                rw [applyEffs_cons_some true (Eff.elink t) es w _ hstep]
                exact h

theorem applyEffs_append_none (dn : Bool) (es1 es2 : List Eff) (v : Option Entry)
    (h : applyEffs dn es1 v = none) : applyEffs dn (es1 ++ es2) v = none := by
  rw [applyEffs_append, h]

theorem applyEffs_append_some (dn : Bool) (es1 es2 : List Eff) (v u : Option Entry)
    (h : applyEffs dn es1 v = some u) :
    applyEffs dn (es1 ++ es2) v = applyEffs dn es2 u := by
  rw [applyEffs_append, h]

/-! ### Trace combinators -/

theorem traceChar_nil (dn : Path → Bool) (fs : FS) : TraceChar dn [] fs fs :=
  fun _ => rfl

theorem traceChar_cons (dn : Path → Bool) (pe : Path × Eff) (T : List (Path × Eff))
    (fs fsx fs' : FS) (h1 : StepChar dn pe fs fsx) (h2 : TraceChar dn T fsx fs') :
    TraceChar dn (pe :: T) fs fs' := by
  intro p
  obtain ⟨p0, e0⟩ := pe
  by_cases hp : p0 = p
  · subst hp
    rw [effsAt_cons, if_pos rfl, applyEffs_cons_some _ _ _ _ _ h1.2]
    exact h2 p0
  · rw [effsAt_cons, if_neg hp]
    rw [← h1.1 p (fun hh => hp hh.symm)]
    exact h2 p

theorem traceChar_append (dn : Path → Bool) (T1 T2 : List (Path × Eff))
    (fs1 fs2 fs3 : FS) (h1 : TraceChar dn T1 fs1 fs2) (h2 : TraceChar dn T2 fs2 fs3) :
    TraceChar dn (T1 ++ T2) fs1 fs3 := by
  intro p
  rw [effsAt_append, applyEffs_append_some _ _ _ _ _ (h1 p)]
  exact h2 p

theorem applyEffs_isSome_head (dn : Bool) (e : Eff) (es : List Eff) (v : Option Entry)
    (h : (applyEffs dn (e :: es) v).isSome = true) : (applyEff dn e v).isSome = true := by
  rcases ha : applyEff dn e v with _ | u
  · rw [applyEffs_cons_none dn e es v ha] at h
    simp at h
  · rfl

theorem traceTotal_cons_head (dn : Path → Bool) (pe : Path × Eff) (T : List (Path × Eff))
    (fs : FS) (h : TraceTotal dn (pe :: T) fs) :
    (applyEff (dn pe.1) pe.2 (getEntry fs pe.1)).isSome = true := by
  have h2 := h pe.1
  obtain ⟨p0, e0⟩ := pe
  rw [effsAt_cons, if_pos rfl] at h2
  exact applyEffs_isSome_head _ _ _ _ h2

theorem traceTotal_cons_tail (dn : Path → Bool) (pe : Path × Eff) (T : List (Path × Eff))
    (fs fsx : FS) (h : TraceTotal dn (pe :: T) fs) (hs : StepChar dn pe fs fsx) :
    TraceTotal dn T fsx := by
  intro p
  obtain ⟨p0, e0⟩ := pe
  by_cases hp : p0 = p
  · subst hp
    have h2 := h p0
    rw [effsAt_cons, if_pos rfl, applyEffs_cons_some _ _ _ _ _ hs.2] at h2
    exact h2
  · have h2 := h p
    rw [effsAt_cons, if_neg hp] at h2
    rw [← hs.1 p (fun hh => hp hh.symm)] at h2
    exact h2

theorem traceTotal_append_left (dn : Path → Bool) (T1 T2 : List (Path × Eff)) (fs : FS)
    (h : TraceTotal dn (T1 ++ T2) fs) : TraceTotal dn T1 fs := by
  intro p
  have h2 := h p
  rw [effsAt_append] at h2
  rcases hl : applyEffs (dn p) (effsAt T1 p) (getEntry fs p) with _ | u
  · rw [applyEffs_append_none _ _ _ _ hl] at h2
    simp at h2
  · simp [hl]

theorem traceTotal_append_right (dn : Path → Bool) (T1 T2 : List (Path × Eff))
    (fs fs2 : FS) (h : TraceTotal dn (T1 ++ T2) fs) (h1 : TraceChar dn T1 fs fs2) :
    TraceTotal dn T2 fs2 := by
  intro p
  have h2 := h p
  rw [effsAt_append, applyEffs_append_some _ _ _ _ _ (h1 p)] at h2
  exact h2

/-! ### Step characterizations -/

theorem fsExists_of_dir (world : Path → Bool) (fs : FS) (fuel : Nat) (p : Path)
    (h : getEntry fs p = some Entry.dir) : fsExists world fs (fuel + 1) p = true := by
  simp [fsExists, h]

theorem stepChar_mkdirOne (denied : Path → Bool) (fs fs' : FS) (p : Path)
    (h : mkdirOne fs p = some fs') : StepChar denied (p, Eff.emkdir) fs fs' := by
  rcases hg : getEntry fs p with _ | e
  · rw [mkdirOne, hg] at h
    simp at h
    subst h
    refine ⟨?_, ?_⟩
    · intro q hq
      have hne : ¬ p = q := fun hh => hq hh.symm
      rw [getEntry_setEntry, if_neg hne]
    · simp [getEntry_setEntry, hg, applyEff]
  · cases e
    · rw [mkdirOne, hg] at h
      simp at h
      subst h
      exact ⟨fun q _ => rfl, by rw [hg]; rfl⟩
    · rw [mkdirOne, hg] at h
      simp at h
    · rw [mkdirOne, hg] at h
      simp at h

theorem mkdirOne_some_of_isSome (fs : FS) (p : Path) (dn : Bool)
    (h : (applyEff dn Eff.emkdir (getEntry fs p)).isSome = true) :
    ∃ fs', mkdirOne fs p = some fs' := by
  rcases hg : getEntry fs p with _ | e
  · exact ⟨_, by rw [mkdirOne, hg]⟩
  · cases e
    · exact ⟨_, by rw [mkdirOne, hg]⟩
    · rw [hg] at h
      simp [applyEff] at h
    · rw [hg] at h
      simp [applyEff] at h

theorem stepChar_ownerLinkStep (world denied : Path → Bool) (fs : FS) (log : List String)
    (fname : String) (t p : Path) :
    StepChar denied (p, Eff.eowner t) fs (ownerLinkStep world denied fs log fname t p).1 := by
  rcases hg : getEntry fs p with _ | e
  · have hex : fsExists world fs 40 p = false := fsExists_of_none world fs 39 p hg
    cases hdn : denied p with
    | true =>
        have heq : (ownerLinkStep world denied fs log fname t p).1 = fs := by
          rw [ownerLinkStep, hex]
          simp [fsSymlink, hdn]
        rw [heq]
        refine ⟨fun q _ => rfl, ?_⟩
        rw [hg]
        simp [applyEff, hdn]
    | false =>
        have heq : (ownerLinkStep world denied fs log fname t p).1
            = setEntry fs p (Entry.symlink (SymTarget.abs t)) := by
          rw [ownerLinkStep, hex]
          simp [fsSymlink, hdn, hg]
        rw [heq]
        refine ⟨?_, ?_⟩
        · intro q hq
          have hne : ¬ p = q := fun hh => hq hh.symm
          rw [getEntry_setEntry, if_neg hne]
        · rw [hg]
          simp [applyEff, hdn, getEntry_setEntry]
  · have heq : (ownerLinkStep world denied fs log fname t p).1 = fs := by
      rw [ownerLinkStep]
      cases hex : fsExists world fs 40 p with
      | true => simp
      | false => cases hdn : denied p <;> simp [fsSymlink, hdn, hg]
    rw [heq]
    refine ⟨fun q _ => rfl, ?_⟩
    rw [hg]
    rfl

theorem stepChar_itemLinkStep (world denied : Path → Bool) (fs : FS) (log : List String)
    (fname : String) (t p : Path) :
    StepChar denied (p, Eff.elink t) fs (itemLinkStep world denied fs log fname t p).1 := by
  rcases hg : getEntry fs p with _ | e
  · have hex : fsExists world fs 40 p = false := fsExists_of_none world fs 39 p hg
    cases hdn : denied p with
    | true =>
        have heq : (itemLinkStep world denied fs log fname t p).1 = fs := by
          simp [itemLinkStep, fsUnlink, hg, hex, fsSymlink, hdn]
        rw [heq]
        refine ⟨fun q _ => rfl, ?_⟩
        rw [hg]
        simp [applyEff, hdn]
    | false =>
        have heq : (itemLinkStep world denied fs log fname t p).1
            = setEntry fs p (Entry.symlink (SymTarget.rel t)) := by
          simp [itemLinkStep, fsUnlink, hg, hex, fsSymlink, hdn]
        rw [heq]
        refine ⟨?_, ?_⟩
        · intro q hq
          have hne : ¬ p = q := fun hh => hq hh.symm
          rw [getEntry_setEntry, if_neg hne]
        · rw [hg]
          simp [applyEff, hdn, getEntry_setEntry]
  · have hg1 : getEntry (delEntry fs p) p = none := by
      simp [getEntry_delEntry]
    have hex1 : fsExists world (delEntry fs p) 40 p = false :=
      fsExists_of_none world _ 39 p hg1
    cases e
    · have hex : fsExists world fs 40 p = true := fsExists_of_dir world fs 39 p hg
      have heq : (itemLinkStep world denied fs log fname t p).1 = fs := by
        simp [itemLinkStep, fsUnlink, hg, hex]
      rw [heq]
      refine ⟨fun q _ => rfl, ?_⟩
      rw [hg]
      rfl
    · cases hdn : denied p with
      | true =>
          have heq : (itemLinkStep world denied fs log fname t p).1 = delEntry fs p := by
            simp [itemLinkStep, fsUnlink, hg, hex1, fsSymlink, hdn]
          rw [heq]
          refine ⟨?_, ?_⟩
          · intro q hq
            have hne : ¬ p = q := fun hh => hq hh.symm
            rw [getEntry_delEntry, if_neg hne]
          · rw [hg]
            simp [applyEff, hdn, getEntry_delEntry]
      | false =>
          have heq : (itemLinkStep world denied fs log fname t p).1
              = setEntry (delEntry fs p) p (Entry.symlink (SymTarget.rel t)) := by
            simp [itemLinkStep, fsUnlink, hg, hex1, fsSymlink, hdn, hg1]
          rw [heq]
          refine ⟨?_, ?_⟩
          · intro q hq
            have hne : ¬ p = q := fun hh => hq hh.symm
            rw [getEntry_setEntry, if_neg hne, getEntry_delEntry, if_neg hne]
          · rw [hg]
            simp [applyEff, hdn, getEntry_setEntry]
    · cases hdn : denied p with
      | true =>
          have heq : (itemLinkStep world denied fs log fname t p).1 = delEntry fs p := by
            simp [itemLinkStep, fsUnlink, hg, hex1, fsSymlink, hdn]
          rw [heq]
          refine ⟨?_, ?_⟩
          · intro q hq
            have hne : ¬ p = q := fun hh => hq hh.symm
            rw [getEntry_delEntry, if_neg hne]
          · rw [hg]
            simp [applyEff, hdn, getEntry_delEntry]
      | false =>
          have heq : (itemLinkStep world denied fs log fname t p).1
              = setEntry (delEntry fs p) p (Entry.symlink (SymTarget.rel t)) := by
            simp [itemLinkStep, fsUnlink, hg, hex1, fsSymlink, hdn, hg1]
          rw [heq]
          refine ⟨?_, ?_⟩
          · intro q hq
            have hne : ¬ p = q := fun hh => hq hh.symm
            rw [getEntry_setEntry, if_neg hne, getEntry_delEntry, if_neg hne]
          · rw [hg]
            simp [applyEff, hdn, getEntry_setEntry]

/-! ### mkdir sequences -/

theorem mkdirList_char (denied : Path → Bool) (qs : List Path) :
    ∀ fs, (mkdirList fs qs).2 = true →
      TraceChar denied (qs.map (fun q => (q, Eff.emkdir))) fs (mkdirList fs qs).1 := by
  induction qs with
  | nil =>
      intro fs _
      exact traceChar_nil denied fs
  | cons q qs ih =>
      intro fs h
      rcases hm : mkdirOne fs q with _ | fsx
      · rw [mkdirList, hm] at h
        simp at h
      · have heq : mkdirList fs (q :: qs) = mkdirList fsx qs := by
          rw [mkdirList, hm]
        rw [heq] at h
        rw [List.map_cons, heq]
        exact traceChar_cons denied (q, Eff.emkdir) _ fs fsx _
          (stepChar_mkdirOne denied fs fsx q hm) (ih fsx h)

theorem mkdirList_total (denied : Path → Bool) (qs : List Path) :
    ∀ fs, TraceTotal denied (qs.map (fun q => (q, Eff.emkdir))) fs →
      (mkdirList fs qs).2 = true := by
  induction qs with
  | nil =>
      intro fs _
      rfl
  | cons q qs ih =>
      intro fs h
      rw [List.map_cons] at h
      have hhead := traceTotal_cons_head denied (q, Eff.emkdir) _ fs h
      obtain ⟨fsx, hm⟩ := mkdirOne_some_of_isSome fs q (denied q) hhead
      have hstep := stepChar_mkdirOne denied fs fsx q hm
      have htail := traceTotal_cons_tail denied (q, Eff.emkdir) _ fs fsx h hstep
      rw [mkdirList, hm]
      exact ih fsx htail


/-! ### Run/trace bridge: per item -/

theorem pfx_albums_users :
    (prefixesOf ["albums", "users"]).map (fun q => (q, Eff.emkdir))
      = [((["albums"] : Path), Eff.emkdir), ((["albums", "users"] : Path), Eff.emkdir)] := rfl

theorem itemTrace_eq (roots : List (Nat × Path)) (cache : FolderDict) (ap : Path)
    (img : AlbumItem) (fv : String × Nat) (owner_path : Path)
    (hd : dlookup (toString img.folder_id) cache = some fv)
    (hr : rlookup img.owner_user_id roots = some owner_path) :
    itemTrace roots cache ap img
      = ((prefixesOf ["albums", "users"]).map (fun q => (q, Eff.emkdir)))
        ++ [((["albums", "users", toString img.owner_user_id] : Path),
              Eff.eowner owner_path),
            (ap ++ [img.filename],
              Eff.elink (sourcePathOf img.owner_user_id fv.1 img.filename))] := by
  rw [pfx_albums_users]
  simp [itemTrace, hd, hr]

theorem processItem_ok_char (roots : List (Nat × Path)) (cache : FolderDict)
    (world denied : Path → Bool) (an : String) (ap : Path) (fs : FS)
    (log : List String) (img : AlbumItem) (fs' : FS) (log' : List String)
    (h : processItem roots cache world denied an ap fs log img = RRes.ok fs' log') :
    assertsPass roots cache img = true ∧
      TraceChar denied (itemTrace roots cache ap img) fs fs' := by
  rcases hd : dlookup (toString img.folder_id) cache with _ | fv
  · simp [processItem, hd] at h
  rcases hr : rlookup img.owner_user_id roots with _ | owner_path
  · simp [processItem, hd, hr] at h
  cases hm2 : (mkdirParents fs ["albums", "users"]).2 with
  | false => simp [processItem, hd, hr, hm2] at h
  | true =>
      rcases hr2 : rlookup fv.2 roots with _ | op2
      · simp [processItem, hd, hr, hm2, hr2] at h
      by_cases hio : img.owner_user_id = fv.2
      · simp [processItem, hd, hr, hm2, hr2] at h
        rw [if_pos hio] at h
        simp at h
        obtain ⟨h1, h2⟩ := h
        refine ⟨by simp [assertsPass, hd, hr, hr2, hio], ?_⟩
        rw [← h1, itemTrace_eq roots cache ap img fv owner_path hd hr]
        exact traceChar_append denied _ _ fs _ _
          (mkdirList_char denied (prefixesOf ["albums", "users"]) fs hm2)
          (traceChar_cons denied _ _ _ _ _
            (stepChar_ownerLinkStep world denied _ log img.filename owner_path _)
            (traceChar_cons denied _ _ _ _ _
              (stepChar_itemLinkStep world denied _ _ img.filename
                (sourcePathOf img.owner_user_id fv.1 img.filename) (ap ++ [img.filename]))
              (traceChar_nil denied _)))
      · simp [processItem, hd, hr, hm2, hr2, hio] at h

theorem processItem_complete (roots : List (Nat × Path)) (cache : FolderDict)
    (world denied : Path → Bool) (an : String) (ap : Path) (fs : FS)
    (log : List String) (img : AlbumItem)
    (ha : assertsPass roots cache img = true)
    (ht : TraceTotal denied (itemTrace roots cache ap img) fs) :
    ∃ fs' log', processItem roots cache world denied an ap fs log img
      = RRes.ok fs' log' := by
  rcases hd : dlookup (toString img.folder_id) cache with _ | fv
  · simp [assertsPass, hd] at ha
  rcases hr : rlookup img.owner_user_id roots with _ | owner_path
  · simp [assertsPass, hd, hr] at ha
  rcases hr2 : rlookup fv.2 roots with _ | op2
  · simp [assertsPass, hd, hr, hr2] at ha
  simp [assertsPass, hd, hr, hr2] at ha
  rw [itemTrace_eq roots cache ap img fv owner_path hd hr] at ht
  have hm2 : (mkdirParents fs ["albums", "users"]).2 = true :=
    mkdirList_total denied (prefixesOf ["albums", "users"]) fs
      (traceTotal_append_left denied _ _ fs ht)
  rcases hres : processItem roots cache world denied an ap fs log img
    with ⟨fs1, log1⟩ | ⟨m, fs1, log1⟩
  · exact ⟨fs1, log1, rfl⟩
  · rw [processItem] at hres
    simp [hd, hr, hm2, hr2, ha] at hres

/-! ### Run/trace bridge: item list -/

theorem processItems_ok_char (roots : List (Nat × Path)) (cache : FolderDict)
    (world denied : Path → Bool) (an : String) (ap : Path) :
    ∀ (imgs : List AlbumItem) (fs : FS) (log : List String) (fs' : FS)
      (log' : List String),
      processItems roots cache world denied an ap fs log imgs = RRes.ok fs' log' →
      (∀ img ∈ imgs, assertsPass roots cache img = true) ∧
        TraceChar denied ((imgs.map (itemTrace roots cache ap)).flatten) fs fs' := by
  intro imgs
  induction imgs with
  | nil =>
      intro fs log fs' log' h
      rw [processItems] at h
      simp at h
      obtain ⟨h1, h2⟩ := h
      subst h1
      exact ⟨by simp, traceChar_nil denied fs⟩
  | cons img rest ih =>
      intro fs log fs' log' h
      rcases hstep : processItem roots cache world denied an ap fs log img
        with ⟨fs1, log1⟩ | ⟨m, fs1, log1⟩
      · have hre : processItems roots cache world denied an ap fs log (img :: rest)
            = processItems roots cache world denied an ap fs1 log1 rest := by
          rw [processItems, hstep]
        rw [hre] at h
        obtain ⟨ha, htr⟩ :=
          processItem_ok_char roots cache world denied an ap fs log img fs1 log1 hstep
        obtain ⟨har, htr2⟩ := ih fs1 log1 fs' log' h
        refine ⟨?_, ?_⟩
        · intro i hi
          rcases List.mem_cons.mp hi with hh | hh
          · subst hh
            exact ha
          · exact har i hh
        · show TraceChar denied
            (itemTrace roots cache ap img ++ (rest.map (itemTrace roots cache ap)).flatten)
            fs fs'
          exact traceChar_append denied _ _ fs fs1 fs' htr htr2
      · have hre : processItems roots cache world denied an ap fs log (img :: rest)
            = RRes.err m fs1 log1 := by
          rw [processItems, hstep]
        rw [hre] at h
        exact absurd h (by simp)

theorem processItems_complete (roots : List (Nat × Path)) (cache : FolderDict)
    (world denied : Path → Bool) (an : String) (ap : Path) :
    ∀ (imgs : List AlbumItem) (fs : FS) (log : List String),
      (∀ img ∈ imgs, assertsPass roots cache img = true) →
      TraceTotal denied ((imgs.map (itemTrace roots cache ap)).flatten) fs →
      ∃ fs' log', processItems roots cache world denied an ap fs log imgs
        = RRes.ok fs' log' := by
  intro imgs
  induction imgs with
  | nil =>
      intro fs log _ _
      exact ⟨fs, log, rfl⟩
  | cons img rest ih =>
      intro fs log ha ht
      have htx : TraceTotal denied
          (itemTrace roots cache ap img ++ (rest.map (itemTrace roots cache ap)).flatten)
          fs := ht
      obtain ⟨fs1, log1, hok⟩ :=
        processItem_complete roots cache world denied an ap fs log img
          (ha img (List.mem_cons_self img rest))
          (traceTotal_append_left denied _ _ fs htx)
      obtain ⟨-, htr⟩ :=
        processItem_ok_char roots cache world denied an ap fs log img fs1 log1 hok
      have ht2 : TraceTotal denied ((rest.map (itemTrace roots cache ap)).flatten) fs1 :=
        traceTotal_append_right denied _ _ fs fs1 htx htr
      obtain ⟨fs2, log2, hrec⟩ :=
        ih fs1 log1 (fun i hi => ha i (List.mem_cons_of_mem img hi)) ht2
      refine ⟨fs2, log2, ?_⟩
      rw [processItems, hok]
      exact hrec

/-! ### Run/trace bridge: album and run -/

theorem processAlbum_ok_char (roots : List (Nat × Path)) (cache : FolderDict)
    (world denied : Path → Bool) (localYear : Int → Int)
    (itemsOf : Nat → List AlbumItem) (fs : FS) (log : List String) (a : Album)
    (fs' : FS) (log' : List String)
    (h : processAlbum roots cache world denied localYear itemsOf fs log a
      = RRes.ok fs' log') :
    (∀ img ∈ itemsOf a.id, assertsPass roots cache img = true) ∧
      TraceChar denied (albumTrace roots cache localYear itemsOf a) fs fs' := by
  cases hm2 : (mkdirParents fs (albumPathOf localYear a)).2 with
  | false =>
      have hre : processAlbum roots cache world denied localYear itemsOf fs log a
          = RRes.err (mkdirErrorMsg (albumPathOf localYear a))
              (mkdirParents fs (albumPathOf localYear a)).1 log := by
        rw [processAlbum]
        simp [hm2]
      rw [hre] at h
      exact absurd h (by simp)
  | true =>
      have hre : processAlbum roots cache world denied localYear itemsOf fs log a
          = processItems roots cache world denied a.name (albumPathOf localYear a)
              (mkdirParents fs (albumPathOf localYear a)).1 log (itemsOf a.id) := by
        rw [processAlbum]
        simp [hm2]
      rw [hre] at h
      obtain ⟨ha, htr⟩ := processItems_ok_char roots cache world denied a.name
        (albumPathOf localYear a) (itemsOf a.id)
        (mkdirParents fs (albumPathOf localYear a)).1 log fs' log' h
      refine ⟨ha, ?_⟩
      show TraceChar denied
        (((prefixesOf (albumPathOf localYear a)).map (fun q => (q, Eff.emkdir))) ++
          ((itemsOf a.id).map (itemTrace roots cache (albumPathOf localYear a))).flatten)
        fs fs'
      exact traceChar_append denied _ _ fs _ fs'
        (mkdirList_char denied (prefixesOf (albumPathOf localYear a)) fs hm2) htr

theorem processAlbum_complete (roots : List (Nat × Path)) (cache : FolderDict)
    (world denied : Path → Bool) (localYear : Int → Int)
    (itemsOf : Nat → List AlbumItem) (fs : FS) (log : List String) (a : Album)
    (ha : ∀ img ∈ itemsOf a.id, assertsPass roots cache img = true)
    (ht : TraceTotal denied (albumTrace roots cache localYear itemsOf a) fs) :
    ∃ fs' log', processAlbum roots cache world denied localYear itemsOf fs log a
      = RRes.ok fs' log' := by
  have htx : TraceTotal denied
      (((prefixesOf (albumPathOf localYear a)).map (fun q => (q, Eff.emkdir))) ++
        ((itemsOf a.id).map (itemTrace roots cache (albumPathOf localYear a))).flatten)
      fs := ht
  have hm2 : (mkdirParents fs (albumPathOf localYear a)).2 = true :=
    mkdirList_total denied (prefixesOf (albumPathOf localYear a)) fs
      (traceTotal_append_left denied _ _ fs htx)
  have htr1 := mkdirList_char denied (prefixesOf (albumPathOf localYear a)) fs hm2
  have ht2 : TraceTotal denied
      ((itemsOf a.id).map (itemTrace roots cache (albumPathOf localYear a))).flatten
      (mkdirParents fs (albumPathOf localYear a)).1 :=
    traceTotal_append_right denied _ _ fs _ htx htr1
  obtain ⟨fs2, log2, hrec⟩ := processItems_complete roots cache world denied a.name
    (albumPathOf localYear a) (itemsOf a.id)
    (mkdirParents fs (albumPathOf localYear a)).1 log ha ht2
  have hre : processAlbum roots cache world denied localYear itemsOf fs log a
      = processItems roots cache world denied a.name (albumPathOf localYear a)
          (mkdirParents fs (albumPathOf localYear a)).1 log (itemsOf a.id) := by
    rw [processAlbum]
    simp [hm2]
  exact ⟨fs2, log2, by rw [hre]; exact hrec⟩

theorem create_album_links_ok_char (roots : List (Nat × Path)) (cache : FolderDict)
    (world denied : Path → Bool) (localYear : Int → Int)
    (itemsOf : Nat → List AlbumItem) :
    ∀ (albums : List Album) (fs : FS) (log : List String) (fs' : FS)
      (log' : List String),
      create_album_links roots cache world denied localYear itemsOf fs log albums
        = RRes.ok fs' log' →
      (∀ a ∈ albums, ∀ img ∈ itemsOf a.id, assertsPass roots cache img = true) ∧
        TraceChar denied (runTrace roots cache localYear itemsOf albums) fs fs' := by
  intro albums
  induction albums with
  | nil =>
      intro fs log fs' log' h
      rw [create_album_links] at h
      simp at h
      obtain ⟨h1, h2⟩ := h
      subst h1
      exact ⟨by simp, traceChar_nil denied fs⟩
  | cons a rest ih =>
      intro fs log fs' log' h
      rcases hstep : processAlbum roots cache world denied localYear itemsOf fs log a
        with ⟨fs1, log1⟩ | ⟨m, fs1, log1⟩
      · have hre : create_album_links roots cache world denied localYear itemsOf fs log
            (a :: rest)
            = create_album_links roots cache world denied localYear itemsOf fs1 log1
                rest := by
          rw [create_album_links, hstep]
        rw [hre] at h
        obtain ⟨ha, htr⟩ := processAlbum_ok_char roots cache world denied localYear
          itemsOf fs log a fs1 log1 hstep
        obtain ⟨har, htr2⟩ := ih fs1 log1 fs' log' h
        refine ⟨?_, ?_⟩
        · intro b hb
          rcases List.mem_cons.mp hb with hh | hh
          · subst hh
            exact ha
          · exact har b hh
        · show TraceChar denied
            (albumTrace roots cache localYear itemsOf a ++
              (rest.map (albumTrace roots cache localYear itemsOf)).flatten) fs fs'
          exact traceChar_append denied _ _ fs fs1 fs' htr htr2
      · have hre : create_album_links roots cache world denied localYear itemsOf fs log
            (a :: rest) = RRes.err m fs1 log1 := by
          rw [create_album_links, hstep]
        rw [hre] at h
        exact absurd h (by simp)

theorem create_album_links_complete (roots : List (Nat × Path)) (cache : FolderDict)
    (world denied : Path → Bool) (localYear : Int → Int)
    (itemsOf : Nat → List AlbumItem) :
    ∀ (albums : List Album) (fs : FS) (log : List String),
      (∀ a ∈ albums, ∀ img ∈ itemsOf a.id, assertsPass roots cache img = true) →
      TraceTotal denied (runTrace roots cache localYear itemsOf albums) fs →
      ∃ fs' log', create_album_links roots cache world denied localYear itemsOf fs log
        albums = RRes.ok fs' log' := by
  intro albums
  induction albums with
  | nil =>
      intro fs log _ _
      exact ⟨fs, log, rfl⟩
  | cons a rest ih =>
      intro fs log ha ht
      have htx : TraceTotal denied
          (albumTrace roots cache localYear itemsOf a ++
            (rest.map (albumTrace roots cache localYear itemsOf)).flatten) fs := ht
      obtain ⟨fs1, log1, hok⟩ :=
        processAlbum_complete roots cache world denied localYear itemsOf fs log a
          (ha a (List.mem_cons_self a rest))
          (traceTotal_append_left denied _ _ fs htx)
      obtain ⟨-, htr⟩ := processAlbum_ok_char roots cache world denied localYear itemsOf
        fs log a fs1 log1 hok
      have ht2 : TraceTotal denied
          ((rest.map (albumTrace roots cache localYear itemsOf)).flatten) fs1 :=
        traceTotal_append_right denied _ _ fs fs1 htx htr
      obtain ⟨fs2, log2, hrec⟩ :=
        ih fs1 log1 (fun b hb => ha b (List.mem_cons_of_mem a hb)) ht2
      refine ⟨fs2, log2, ?_⟩
      rw [create_album_links, hok]
      exact hrec


/-! ### C6, C4, C5 -/

/-- C6: running link creation twice in a row over the same albums, items,
cache and configuration is idempotent: if the first run finishes, the second
run (started from the state and log the first one left) also finishes, and
the filesystem it produces holds exactly the same entry at every path as
after the first run — stale links are removed and recreated inside each item
step, and the second run adds no duplicate or broken links. -/
theorem c6_create_album_links_idempotent (roots : List (Nat × Path)) (cache : FolderDict)
    (world denied : Path → Bool) (localYear : Int → Int) (itemsOf : Nat → List AlbumItem)
    (albums : List Album) (fs fs1 : FS) (log log1 : List String)
    (h : create_album_links roots cache world denied localYear itemsOf fs log albums
      = RRes.ok fs1 log1) :
    ∃ fs2 log2,
      create_album_links roots cache world denied localYear itemsOf fs1 log1 albums
        = RRes.ok fs2 log2 ∧ ∀ p, getEntry fs2 p = getEntry fs1 p := by
  obtain ⟨ha, htr⟩ := create_album_links_ok_char roots cache world denied localYear
    itemsOf albums fs log fs1 log1 h
  have htr1 : TraceChar denied (runTrace roots cache localYear itemsOf albums) fs1 fs1 :=
    fun p => applyEffs_idem _ _ _ _ (htr p)
  have htt : TraceTotal denied (runTrace roots cache localYear itemsOf albums) fs1 := by
    intro p
    rw [htr1 p]
    rfl
  obtain ⟨fs2, log2, h2⟩ := create_album_links_complete roots cache world denied
    localYear itemsOf albums fs1 log1 ha htt
  obtain ⟨-, htr2⟩ := create_album_links_ok_char roots cache world denied localYear
    itemsOf albums fs1 log1 fs2 log2 h2
  refine ⟨fs2, log2, h2, ?_⟩
  intro p
  have e2 := htr1 p
  rw [htr2 p] at e2
  exact Option.some_injective _ e2

/-- C4: an album item whose folder id (string key) is missing from the loaded
folder cache makes the per-item code fail its first assert, with a message
naming the item's filename and the album, and a run over any album list
containing that item stops with an error instead of completing. -/
theorem c4_missing_folder_aborts (roots : List (Nat × Path)) (cache : FolderDict)
    (world denied : Path → Bool) (localYear : Int → Int) (itemsOf : Nat → List AlbumItem)
    (albums : List Album) (fs fs0 : FS) (log log0 : List String) (a : Album)
    (img : AlbumItem) (ap : Path)
    (haA : a ∈ albums) (hi : img ∈ itemsOf a.id)
    (hd : dlookup (toString img.folder_id) cache = none) :
    processItem roots cache world denied a.name ap fs0 log0 img
      = RRes.err (missingFolderMsg (toString img.folder_id) img.filename a.name) fs0 log0
    ∧ (create_album_links roots cache world denied localYear itemsOf fs log
        albums).isErr = true := by
  refine ⟨by simp [processItem, hd], ?_⟩
  rcases hres : create_album_links roots cache world denied localYear itemsOf fs log
      albums with ⟨fs1, log1⟩ | ⟨m, fs1, log1⟩
  · obtain ⟨ha, -⟩ := create_album_links_ok_char roots cache world denied localYear
      itemsOf albums fs log fs1 log1 hres
    have hap := ha a haA img hi
    simp [assertsPass, hd] at hap
  · rfl

/-- C5: an album item whose owner-user id differs from the owner id stored in
the cached folder record fails the owner-consistency assert, with a message
naming both owner ids together with the album and the filename (the earlier
lookups and the directory creation having succeeded), no item link step is
reached for it, and a run over any album list containing that item stops with
an error. -/
theorem c5_owner_mismatch_aborts (roots : List (Nat × Path)) (cache : FolderDict)
    (world denied : Path → Bool) (localYear : Int → Int) (itemsOf : Nat → List AlbumItem)
    (albums : List Album) (fs fs0 : FS) (log log0 : List String) (a : Album)
    (img : AlbumItem) (ap : Path) (fv : String × Nat) (op op2 : Path)
    (haA : a ∈ albums) (hi : img ∈ itemsOf a.id)
    (hd : dlookup (toString img.folder_id) cache = some fv)
    (hne : ¬ img.owner_user_id = fv.2)
    (hr : rlookup img.owner_user_id roots = some op)
    (hr2 : rlookup fv.2 roots = some op2)
    (hm2 : (mkdirParents fs0 ["albums", "users"]).2 = true) :
    processItem roots cache world denied a.name ap fs0 log0 img
      = RRes.err (ownerMismatchMsg img.owner_user_id fv.2 a.name img.filename)
          (ownerLinkStep world denied (mkdirParents fs0 ["albums", "users"]).1 log0
            img.filename op ["albums", "users", toString img.owner_user_id]).1
          (ownerLinkStep world denied (mkdirParents fs0 ["albums", "users"]).1 log0
            img.filename op ["albums", "users", toString img.owner_user_id]).2
    ∧ (create_album_links roots cache world denied localYear itemsOf fs log
        albums).isErr = true := by
  refine ⟨by simp [processItem, hd, hr, hm2, hr2, hne], ?_⟩
  rcases hres : create_album_links roots cache world denied localYear itemsOf fs log
      albums with ⟨fs1, log1⟩ | ⟨m, fs1, log1⟩
  · obtain ⟨ha, -⟩ := create_album_links_ok_char roots cache world denied localYear
      itemsOf albums fs log fs1 log1 hres
    have hap := ha a haA img hi
    simp [assertsPass, hd, hr, hr2, hne] at hap
  · rfl


/-! ### Decimal strings determine the number (`toString` on `Nat` is injective) -/

theorem digitChar_val (d : Nat) (h : d < 10) : (Nat.digitChar d).toNat - 48 = d := by
  interval_cases d <;> decide

theorem toDigitsCore_foldVal : ∀ (fuel n : Nat), n < fuel →
    ∃ k, (∀ (s : Nat) (ds : List Char),
        (Nat.toDigitsCore 10 fuel n ds).foldl (fun a c => a * 10 + (c.toNat - 48)) s
          = ds.foldl (fun a c => a * 10 + (c.toNat - 48)) (s * 10 ^ k + n))
      ∧ n < 10 ^ k := by
  intro fuel
  induction fuel with
  | zero =>
      intro n h
      exact absurd h (Nat.not_lt_zero n)
  | succ f ih =>
      intro n hn
      by_cases h0 : n / 10 = 0
      · refine ⟨1, ?_, by rw [pow_one]; omega⟩
        intro s ds
        have hstep : Nat.toDigitsCore 10 (f + 1) n ds
            = Nat.digitChar (n % 10) :: ds := by
          unfold Nat.toDigitsCore
          simp only
          rw [if_pos h0]
        rw [hstep]
        simp only [List.foldl_cons]
        have harith : s * 10 + ((Nat.digitChar (n % 10)).toNat - 48)
            = s * 10 ^ 1 + n := by
          rw [digitChar_val (n % 10) (by omega), pow_one]
          omega
        rw [harith]
      · obtain ⟨k, hk, hklt⟩ := ih (n / 10) (by omega)
        refine ⟨k + 1, ?_, ?_⟩
        · intro s ds
          have hstep : Nat.toDigitsCore 10 (f + 1) n ds
              = Nat.toDigitsCore 10 f (n / 10) (Nat.digitChar (n % 10) :: ds) := by
            conv_lhs => unfold Nat.toDigitsCore
            simp only
            rw [if_neg h0]
          rw [hstep, hk s (Nat.digitChar (n % 10) :: ds)]
          simp only [List.foldl_cons]
          have harith : (s * 10 ^ k + n / 10) * 10 + ((Nat.digitChar (n % 10)).toNat - 48)
              = s * 10 ^ (k + 1) + n := by
            rw [digitChar_val (n % 10) (by omega), pow_succ]
            have hdm : n / 10 * 10 + n % 10 = n := by omega
            calc (s * 10 ^ k + n / 10) * 10 + n % 10
                = s * (10 ^ k * 10) + (n / 10 * 10 + n % 10) := by ring
              _ = s * (10 ^ k * 10) + n := by rw [hdm]
          rw [harith]
        · rw [pow_succ]
          omega

theorem nat_repr_foldVal (n : Nat) :
    (Nat.repr n).data.foldl (fun a c => a * 10 + (c.toNat - 48)) 0 = n := by
  obtain ⟨k, hk, -⟩ := toDigitsCore_foldVal (n + 1) n (Nat.lt_succ_self n)
  have h2 : (Nat.repr n).data = Nat.toDigitsCore 10 (n + 1) n [] := rfl
  rw [h2, hk 0 []]
  simp

theorem nat_toString_inj (m n : Nat) (h : toString m = toString n) : m = n := by
  have h2 : Nat.repr m = Nat.repr n := h
  have h3 := congrArg (fun s => s.data.foldl (fun a c => a * 10 + (c.toNat - 48)) 0) h2
  simpa [nat_repr_foldVal] using h3




/-! ### C9: the per-owner root link -/

theorem applyEffs_owner_chain (dn : Bool) (t : Path) :
    ∀ (E : List Eff), (∀ e ∈ E, e = Eff.eowner t) →
      (∀ x, applyEffs dn E (some x) = some (some x)) ∧
        (applyEffs dn E none = some none ∨
          applyEffs dn E none = some (some (Entry.symlink (SymTarget.abs t)))) := by
  intro E
  induction E with
  | nil =>
      intro _
      exact ⟨fun x => rfl, Or.inl rfl⟩
  | cons e es ih =>
      intro hall
      have he : e = Eff.eowner t := hall e (List.mem_cons_self e es)
      have ihh := ih (fun e' h' => hall e' (List.mem_cons_of_mem e h'))
      subst he
      refine ⟨?_, ?_⟩
      · intro x
        rw [applyEffs_cons_some dn (Eff.eowner t) es (some x) (some x) rfl]
        exact ihh.1 x
      · cases hdn : dn with
        | true =>
            rw [hdn] at ihh
            rw [applyEffs_cons_some true (Eff.eowner t) es none none rfl]
            exact ihh.2
        | false =>
            rw [hdn] at ihh
            have hstep : applyEff false (Eff.eowner t) none
                = some (some (Entry.symlink (SymTarget.abs t))) := rfl
            rw [applyEffs_cons_some false (Eff.eowner t) es none _ hstep]
            exact Or.inr (ihh.1 (Entry.symlink (SymTarget.abs t)))

theorem runTrace_owner_shape (roots : List (Nat × Path)) (cache : FolderDict)
    (localYear : Int → Int) (itemsOf : Nat → List AlbumItem) (albums : List Album)
    (o : Nat) :
    ∀ e ∈ effsAt (runTrace roots cache localYear itemsOf albums)
        ["albums", "users", toString o],
      e = Eff.eowner ((rlookup o roots).getD []) := by
  intro e he
  have hmem := mem_of_mem_effsAt _ _ _ he
  rw [runTrace] at hmem
  obtain ⟨l, hl, hmem2⟩ := List.mem_flatten.mp hmem
  obtain ⟨a, haA, rfl⟩ := List.mem_map.mp hl
  rw [albumTrace] at hmem2
  rcases List.mem_append.mp hmem2 with hmk | hit
  · obtain ⟨q, hq, heq⟩ := List.mem_map.mp hmk
    rw [prefixesOf] at hq
    obtain ⟨i, hiR, hqt⟩ := List.mem_map.mp hq
    have hi3 : i < (albumPathOf localYear a).length := List.mem_range.mp hiR
    injection heq with h1 h2
    subst hqt
    have hi3' : i < 3 := by
      simpa [albumPathOf] using hi3
    interval_cases i
    · rw [albumPathOf] at h1
      simp at h1
    · rw [albumPathOf] at h1
      simp at h1
    · rw [albumPathOf] at h1
      simp at h1
      exact absurd h1.1 (get_album_year_ne_users localYear a.create_time a.name)
  · obtain ⟨l2, hl2, hmem3⟩ := List.mem_flatten.mp hit
    obtain ⟨img, hiI, rfl⟩ := List.mem_map.mp hl2
    rw [itemTrace] at hmem3
    simp only [List.mem_cons, List.not_mem_nil, or_false] at hmem3
    rcases hmem3 with h1 | h1 | h1 | h1
    · injection h1 with hp1 hp2
      simp at hp1
    · injection h1 with hp1 hp2
      simp at hp1
    · injection h1 with hp1 hp2
      have ho : toString o = toString img.owner_user_id := by
        simpa using hp1
      have ho2 : o = img.owner_user_id := nat_toString_inj o img.owner_user_id ho
      rw [hp2, ← ho2]
    · injection h1 with hp1 hp2
      have hl4 := congrArg List.length hp1
      simp [albumPathOf] at hl4

/-- C9: for every owner id, a run that finishes leaves the per-owner root
link path `albums/users/owner` as follows: whatever entry already occupied
that path before the run is still there unchanged afterwards (an existing
link is reused by every album and never treated as an error), and if the path
started empty, then afterwards it is either still empty or holds exactly one
symlink to that owner's configured absolute photo root — the link is created
only when nothing exists at the path, hence at most once per run. -/
theorem c9_owner_root_link_once (roots : List (Nat × Path)) (cache : FolderDict)
    (world denied : Path → Bool) (localYear : Int → Int)
    (itemsOf : Nat → List AlbumItem) (albums : List Album) (fs fs' : FS)
    (log log' : List String)
    (h : create_album_links roots cache world denied localYear itemsOf fs log albums
      = RRes.ok fs' log') (o : Nat) :
    (∀ en, getEntry fs ["albums", "users", toString o] = some en →
        getEntry fs' ["albums", "users", toString o] = some en)
    ∧ (getEntry fs ["albums", "users", toString o] = none →
        getEntry fs' ["albums", "users", toString o] = none ∨
          getEntry fs' ["albums", "users", toString o]
            = some (Entry.symlink (SymTarget.abs ((rlookup o roots).getD [])))) := by
  obtain ⟨-, htr⟩ := create_album_links_ok_char roots cache world denied localYear
    itemsOf albums fs log fs' log' h
  have hall := runTrace_owner_shape roots cache localYear itemsOf albums o
  have hchain := applyEffs_owner_chain (denied ["albums", "users", toString o])
    ((rlookup o roots).getD [])
    (effsAt (runTrace roots cache localYear itemsOf albums)
      ["albums", "users", toString o]) hall
  constructor
  · intro en hen
    have hp := htr ["albums", "users", toString o]
    rw [hen, hchain.1 en] at hp
    exact (Option.some_injective _ hp).symm
  · intro h0
    have hp := htr ["albums", "users", toString o]
    rw [h0] at hp
    rcases hchain.2 with hc | hc
    · rw [hc] at hp
      exact Or.inl (Option.some_injective _ hp).symm
    · rw [hc] at hp
      exact Or.inr (Option.some_injective _ hp).symm


/-! ### C8: per-item link layout -/

/-- C8: for an album item that passes every consistency check (its per-item
loop iteration succeeds), when the computed link path is initially free and
symlink creation there is permitted, the run places a symlink at
`albums/<year>/<album name with "/" replaced by "_">/<filename>` whose target
is the relative path `../../users/<owner id>/<cached folder name with its
leading character stripped>/<filename>`, i.e. it resolves through the
per-owner root link `albums/users/<owner id>` without any absolute path. -/
theorem c8_item_link_layout (roots : List (Nat × Path)) (cache : FolderDict)
    (world denied : Path → Bool) (localYear : Int → Int) (a : Album)
    (img : AlbumItem) (fv : String × Nat) (fs fs' : FS) (log log' : List String)
    (hd : dlookup (toString img.folder_id) cache = some fv)
    (h : processItem roots cache world denied a.name (albumPathOf localYear a) fs log img
      = RRes.ok fs' log')
    (hdn : denied (albumPathOf localYear a ++ [img.filename]) = false)
    (hfree : getEntry fs (albumPathOf localYear a ++ [img.filename]) = none) :
    albumPathOf localYear a
      = ["albums", get_album_year localYear a.create_time a.name,
          replSlash a.name]
    ∧ getEntry fs' (albumPathOf localYear a ++ [img.filename])
      = some (Entry.symlink (SymTarget.rel
          (".." :: ".." :: "users" :: toString img.owner_user_id ::
            (pathParts (fv.1.drop 1) ++ [img.filename])))) := by
  obtain ⟨-, htr⟩ := processItem_ok_char roots cache world denied a.name
    (albumPathOf localYear a) fs log img fs' log' h
  have hp := htr (albumPathOf localYear a ++ [img.filename])
  rw [itemTrace] at hp
  have hne1 : ¬ (["albums"] : Path) = albumPathOf localYear a ++ [img.filename] := by
    intro hh
    have hl := congrArg List.length hh
    simp [albumPathOf] at hl
  have hne2 : ¬ (["albums", "users"] : Path)
      = albumPathOf localYear a ++ [img.filename] := by
    intro hh
    have hl := congrArg List.length hh
    simp [albumPathOf] at hl
  have hne3 : ¬ (["albums", "users", toString img.owner_user_id] : Path)
      = albumPathOf localYear a ++ [img.filename] := by
    intro hh
    have hl := congrArg List.length hh
    simp [albumPathOf] at hl
  simp only [effsAt, if_neg hne1, if_neg hne2, if_neg hne3, if_pos rfl] at hp
  rw [hfree] at hp
  simp [applyEffs, applyEff, hdn, hd] at hp
  refine ⟨rfl, ?_⟩
  rw [← hp]
  rfl

/-! ### C10: symlink-creation failures are logged and skipped -/

/-- C10: if creating the per-item symlink fails (here: permission denied at
the link path), the per-item iteration still returns normally, the OSError
text is appended to the output as
`Error creating symlink for <filename>: <error>`, and the loop goes on to
process the remaining items from the state reached — a failed link never
aborts the album or the run. -/
theorem c10_symlink_failures_logged (roots : List (Nat × Path)) (cache : FolderDict)
    (world denied : Path → Bool) (localYear : Int → Int) (a : Album)
    (img : AlbumItem) (rest : List AlbumItem) (fs : FS) (log : List String)
    (ha : assertsPass roots cache img = true)
    (hm2 : (mkdirParents fs ["albums", "users"]).2 = true)
    (hdn : denied (albumPathOf localYear a ++ [img.filename]) = true)
    (hfree : getEntry fs (albumPathOf localYear a ++ [img.filename]) = none) :
    ∃ fs1 log1,
      processItem roots cache world denied a.name (albumPathOf localYear a) fs log img
        = RRes.ok fs1 log1
      ∧ symlinkErrorLine img.filename "Permission denied" ∈ log1
      ∧ processItems roots cache world denied a.name (albumPathOf localYear a) fs log
          (img :: rest)
        = processItems roots cache world denied a.name (albumPathOf localYear a)
            fs1 log1 rest := by
  rcases hd : dlookup (toString img.folder_id) cache with _ | fv
  · simp [assertsPass, hd] at ha
  rcases hr : rlookup img.owner_user_id roots with _ | op
  · simp [assertsPass, hd, hr] at ha
  rcases hr2 : rlookup fv.2 roots with _ | op2
  · simp [assertsPass, hd, hr, hr2] at ha
  simp [assertsPass, hd, hr, hr2] at ha
  have hne1 : ¬ (["albums"] : Path) = albumPathOf localYear a ++ [img.filename] := by
    intro hh
    have hl := congrArg List.length hh
    simp [albumPathOf] at hl
  have hne2 : ¬ (["albums", "users"] : Path)
      = albumPathOf localYear a ++ [img.filename] := by
    intro hh
    have hl := congrArg List.length hh
    simp [albumPathOf] at hl
  have hne3 : ¬ (["albums", "users", toString img.owner_user_id] : Path)
      = albumPathOf localYear a ++ [img.filename] := by
    intro hh
    have hl := congrArg List.length hh
    simp [albumPathOf] at hl
  have htrm := mkdirList_char denied (prefixesOf ["albums", "users"]) fs hm2
  have hm0 := htrm (albumPathOf localYear a ++ [img.filename])
  rw [pfx_albums_users] at hm0
  simp only [effsAt, if_neg hne1, if_neg hne2, applyEffs] at hm0
  have hps0 : getEntry (mkdirParents fs ["albums", "users"]).1
      (albumPathOf localYear a ++ [img.filename]) = none := by
    have hx : getEntry fs (albumPathOf localYear a ++ [img.filename])
        = getEntry (mkdirParents fs ["albums", "users"]).1
            (albumPathOf localYear a ++ [img.filename]) :=
      Option.some_injective _ hm0
    rw [← hx]
    exact hfree
  have howner := stepChar_ownerLinkStep world denied
    (mkdirParents fs ["albums", "users"]).1 log img.filename op
    ["albums", "users", toString img.owner_user_id]
  have hps1 : getEntry
      (ownerLinkStep world denied (mkdirParents fs ["albums", "users"]).1 log
        img.filename op ["albums", "users", toString img.owner_user_id]).1
      (albumPathOf localYear a ++ [img.filename]) = none := by
    rw [howner.1 (albumPathOf localYear a ++ [img.filename])
      (fun hh => hne3 hh.symm)]
    exact hps0
  have hex1 : fsExists world
      (ownerLinkStep world denied (mkdirParents fs ["albums", "users"]).1 log
        img.filename op ["albums", "users", toString img.owner_user_id]).1
      40 (albumPathOf localYear a ++ [img.filename]) = false :=
    fsExists_of_none world _ 39 _ hps1
  have hitem : itemLinkStep world denied
      (ownerLinkStep world denied (mkdirParents fs ["albums", "users"]).1 log
        img.filename op ["albums", "users", toString img.owner_user_id]).1
      (ownerLinkStep world denied (mkdirParents fs ["albums", "users"]).1 log
        img.filename op ["albums", "users", toString img.owner_user_id]).2
      img.filename (sourcePathOf img.owner_user_id fv.1 img.filename)
      (albumPathOf localYear a ++ [img.filename])
      = ((ownerLinkStep world denied (mkdirParents fs ["albums", "users"]).1 log
            img.filename op ["albums", "users", toString img.owner_user_id]).1,
         (ownerLinkStep world denied (mkdirParents fs ["albums", "users"]).1 log
            img.filename op ["albums", "users", toString img.owner_user_id]).2
           ++ [symlinkErrorLine img.filename "Permission denied"]) := by
    simp [itemLinkStep, fsUnlink, hps1, hex1, fsSymlink, hdn]
  have hok : processItem roots cache world denied a.name (albumPathOf localYear a)
      fs log img
      = RRes.ok
          (ownerLinkStep world denied (mkdirParents fs ["albums", "users"]).1 log
            img.filename op ["albums", "users", toString img.owner_user_id]).1
          ((ownerLinkStep world denied (mkdirParents fs ["albums", "users"]).1 log
            img.filename op ["albums", "users", toString img.owner_user_id]).2
            ++ [symlinkErrorLine img.filename "Permission denied"]) := by
    rw [processItem]
    simp only [hd, hr, hm2, hr2]
    simp only [Bool.true_eq_false, if_false]
    rw [if_pos ha, hitem]
  refine ⟨_, _, hok, ?_, ?_⟩
  · simp
  · rw [processItems, hok]


/-! ### Concrete instances of C4, C5, C6, C8, C9, C10 -/

/-- `c6_create_album_links_idempotent` at concrete data: a second run over the
state the first run produced finishes and changes no entry. -/
theorem c6_witness :
    ∃ fs2 log2,
      create_album_links wRoots wCache wWorld wDenied wLy wItemsOf wRunFs [] wAlbums
        = RRes.ok fs2 log2 ∧ ∀ p, getEntry fs2 p = getEntry wRunFs p :=
  c6_create_album_links_idempotent wRoots wCache wWorld wDenied wLy wItemsOf wAlbums
    [] wRunFs [] [] (by decide)

/-- `c4_missing_folder_aborts` at concrete data: folder id 9 is not in the
cache, the item fails with the missing-folder message and the run errs. -/
theorem c4_witness :
    processItem wRoots wCache wWorld wDenied wAlbum.name [] [] [] wBadItem
      = RRes.err (missingFolderMsg (toString wBadItem.folder_id) wBadItem.filename
          wAlbum.name) [] []
    ∧ (create_album_links wRoots wCache wWorld wDenied wLy wBadItemsOf [] []
        wAlbums).isErr = true :=
  c4_missing_folder_aborts wRoots wCache wWorld wDenied wLy wBadItemsOf wAlbums
    [] [] [] [] wAlbum wBadItem [] (by decide) (by decide) (by decide)

/-- `c5_owner_mismatch_aborts` at concrete data: the item's owner 0 differs
from the cached folder owner 5, the item fails with the mismatch message and
the run errs. -/
theorem c5_witness :
    processItem wRoots5 wCache5 wWorld wDenied wAlbum.name [] [] [] wItem
      = RRes.err (ownerMismatchMsg wItem.owner_user_id 5 wAlbum.name wItem.filename)
          (ownerLinkStep wWorld wDenied (mkdirParents [] ["albums", "users"]).1 []
            wItem.filename ["volume1", "homes", "User1", "Photos"]
            ["albums", "users", toString wItem.owner_user_id]).1
          (ownerLinkStep wWorld wDenied (mkdirParents [] ["albums", "users"]).1 []
            wItem.filename ["volume1", "homes", "User1", "Photos"]
            ["albums", "users", toString wItem.owner_user_id]).2
    ∧ (create_album_links wRoots5 wCache5 wWorld wDenied wLy wItemsOf [] []
        wAlbums).isErr = true :=
  c5_owner_mismatch_aborts wRoots5 wCache5 wWorld wDenied wLy wItemsOf wAlbums
    [] [] [] [] wAlbum wItem [] ("/Photos/2023", 5)
    ["volume1", "homes", "User1", "Photos"] ["volume1", "homes", "User5", "Photos"]
    (by decide) (by decide) (by decide) (by decide) (by decide) (by decide) (by decide)

/-- `c8_item_link_layout` at concrete data: the item link of `wItem` sits at
`albums/2023/2023 Summer/photo1.jpg` and points to
`../../users/0/Photos/2023/photo1.jpg`. -/
theorem c8_witness :
    albumPathOf wLy wAlbum
      = ["albums", get_album_year wLy wAlbum.create_time wAlbum.name,
          replSlash wAlbum.name]
    ∧ getEntry wItemFs (albumPathOf wLy wAlbum ++ [wItem.filename])
      = some (Entry.symlink (SymTarget.rel
          (".." :: ".." :: "users" :: toString wItem.owner_user_id ::
            (pathParts (("/Photos/2023" : String).drop 1) ++ [wItem.filename])))) :=
  c8_item_link_layout wRoots wCache wWorld wDenied wLy wAlbum wItem ("/Photos/2023", 0)
    [] wItemFs [] [] (by decide) (by decide) (by decide) (by decide)

/-- `c9_owner_root_link_once` at concrete data: starting from an empty
filesystem, after the run the owner-link path holds the single absolute link
to owner 0's configured root. -/
theorem c9_witness :
    (∀ en, getEntry ([] : FS) ["albums", "users", toString (0 : Nat)] = some en →
        getEntry wRunFs ["albums", "users", toString (0 : Nat)] = some en)
    ∧ (getEntry ([] : FS) ["albums", "users", toString (0 : Nat)] = none →
        getEntry wRunFs ["albums", "users", toString (0 : Nat)] = none ∨
          getEntry wRunFs ["albums", "users", toString (0 : Nat)]
            = some (Entry.symlink (SymTarget.abs ((rlookup 0 wRoots).getD [])))) :=
  c9_owner_root_link_once wRoots wCache wWorld wDenied wLy wItemsOf wAlbums
    [] wRunFs [] [] (by decide) 0

/-- `c10_symlink_failures_logged` at concrete data: with symlink creation
denied at the item link path, the item still returns normally, the OSError
line is in the log, and the loop continues. -/
theorem c10_witness :
    ∃ fs1 log1,
      processItem wRoots wCache wWorld wDenied10 wAlbum.name (albumPathOf wLy wAlbum)
        [] [] wItem = RRes.ok fs1 log1
      ∧ symlinkErrorLine wItem.filename "Permission denied" ∈ log1
      ∧ processItems wRoots wCache wWorld wDenied10 wAlbum.name (albumPathOf wLy wAlbum)
          [] [] (wItem :: [])
        = processItems wRoots wCache wWorld wDenied10 wAlbum.name (albumPathOf wLy wAlbum)
            fs1 log1 [] :=
  c10_symlink_failures_logged wRoots wCache wWorld wDenied10 wLy wAlbum wItem []
    [] [] (by decide) (by decide) (by decide) (by decide)

end SAL
